import Mathlib

/-!
# Verification of the Swiss-tournament pairing/scoring engine

Shallow embedding of `src/api/index.py` (a Flask app implementing a
Yu-Gi-Oh! TCG Swiss tournament manager).  The KV-store/HTTP plumbing is out
of scope (per the spec); the tournament document is modelled as an in-memory
value and every route handler is embedded as a pure function from the
document (plus the request payload) to its result and the updated document.

Modelling conventions:
* Python floats are modelled as exact rationals (`ℚ`).  Python's `round`
  (correct rounding of the decimal expansion, ties to even) is modelled by
  `rhe`.  The pipeline `int(round(x, 3) * 1000)` is modelled as
  `rhe (1000 * x)`: in exact arithmetic `round(x,3) = rhe(1000*x)/1000`, the
  multiplication by 1000 recovers the integer `rhe(1000*x)` and `int` is the
  identity on it.  (Binary-representation error of the actual `float` type
  can additionally perturb the final truncation by one unit; that error is
  not modelled, and no claim verified here depends on it.)
* `random.Random(seed).shuffle(xs)` is modelled by an explicit parameter
  `shuffle : ℕ → List String → List String` (seed, list); theorems about
  behaviour quantify over all `shuffle` that permute their input, which the
  Mersenne-Twister shuffle does.
* `uuid`-based match-id generation (`new_id("m")`) is modelled by an explicit
  parameter `mkId : ℕ → String` indexed by the table number.
* Python dicts keyed by player id are modelled by association-style lookup
  over lists (`List.find?`); on the well-formed documents the claims are
  about (unique ids) this agrees with dict semantics.
* Recursions that Python runs with mutable indices/`while` loops are
  embedded structurally with an explicit fuel argument that is always
  initialised to an upper bound of the recursion depth (the list length),
  so the fuel-exhausted branches are unreachable; this keeps every
  definition kernel-computable.
-/

namespace Swiss

/-- A competitor: `{id, name}` entries of `tdoc["players"]`. -/
structure Player where
  id : String
  name : String
deriving DecidableEq, Repr

/-- A match record `{id, t, a, b, r}`: `b = none` models the JSON `null`
(bye), `r` is the outcome string (`"PENDING" | "A" | "B" | "TIE" | "BYE"`,
kept as `String` since documents are raw JSON). -/
structure Match where
  id : String
  t : ℕ
  a : String
  b : Option String
  r : String
deriving DecidableEq, Repr

/-- A round record `{n, matches}`. -/
structure Round where
  n : ℕ
  «matches» : List Match
deriving DecidableEq, Repr

/-- The tournament document.  `bye_history` models the optional
`tdoc["bye_history"]` list (absent ⇒ `[]`). -/
structure Tournament where
  name : String
  total_rounds : ℕ
  players : List Player
  rounds : List Round
  bye_history : List String := []
deriving DecidableEq, Repr

/-- Python truthiness of the optional `m.get("b")` field: `None` and the
empty string are both falsy. -/
def optTruthy (o : Option String) : Option String :=
  match o with
  | none => none
  | some s => if s = "" then none else some s

/-- Derived per-competitor node (`class Node`).  The source stores mutable
`Node` references in `wins`/`losses`/`ties`; we store opponent ids, with
`none` standing for the `"BYE"` sentinel in `wins`. -/
structure Node where
  id : String
  name : String
  wins : List (Option String) := []
  losses : List String := []
  ties : List String := []
  lost_rounds : List ℕ := []
deriving DecidableEq, Repr

/-- `Node.num_byes`. -/
def Node.num_byes (nd : Node) : ℕ := (nd.wins.filter (fun w => w = none)).length

/-- `Node.wins_excl_bye`. -/
def Node.wins_excl_bye (nd : Node) : ℕ := (nd.wins.filter (fun w => w ≠ none)).length

/-- `Node.matches_played_excl_bye`: ties count as matches played; BYE excluded. -/
def Node.matches_played_excl_bye (nd : Node) : ℕ :=
  nd.wins_excl_bye + nd.losses.length + nd.ties.length

/-- `Node.match_points`: Win = 3, Tie = 0, Loss = 0; BYE counts as a win. -/
def Node.match_points (nd : Node) : ℕ := 3 * nd.wins.length

/-- `Node.match_win_pct` (floats as exact rationals). -/
def Node.match_win_pct (nd : Node) : ℚ :=
  if nd.matches_played_excl_bye = 0 then 0
  else (nd.wins_excl_bye : ℚ) / (nd.matches_played_excl_bye : ℚ)

/-- The fresh nodes `{p["id"]: Node(...) for p in t["players"]}` (in roster
order, as `dict` iteration preserves insertion order). -/
def initNodes (t : Tournament) : List Node :=
  t.players.map (fun p => { id := p.id, name := p.name })

/-- Update the node with the given id (a dict write `players[pid] = f(...)`). -/
def updNode (ns : List Node) (pid : String) (f : Node → Node) : List Node :=
  ns.map (fun nd => if nd.id = pid then f nd else nd)

/-- One iteration of the match loop in `rebuild_graph`:
`r == "PENDING"` skipped; `r == "BYE"` credits a BYE win to `a`; otherwise
with `b` present, `"A"`/`"B"`/`"TIE"` update both nodes (any other outcome
string does nothing). -/
def applyMatch (n : ℕ) (ns : List Node) (m : Match) : List Node :=
  if m.r = "PENDING" then ns
  else if m.r = "BYE" then
    updNode ns m.a (fun nd => { nd with wins := nd.wins ++ [none] })
  else
    match optTruthy m.b with
    | none => ns
    | some b =>
      if m.r = "A" then
        updNode (updNode ns m.a (fun nd => { nd with wins := nd.wins ++ [some b] })) b
          (fun nd => { nd with losses := nd.losses ++ [m.a],
                               lost_rounds := nd.lost_rounds ++ [n] })
      else if m.r = "B" then
        updNode (updNode ns b (fun nd => { nd with wins := nd.wins ++ [some m.a] })) m.a
          (fun nd => { nd with losses := nd.losses ++ [b],
                               lost_rounds := nd.lost_rounds ++ [n] })
      else if m.r = "TIE" then
        updNode (updNode ns m.a (fun nd => { nd with ties := nd.ties ++ [b] })) b
          (fun nd => { nd with ties := nd.ties ++ [m.a] })
      else ns

/-- `rebuild_graph`: walk every round's matches in order, rebuilding the
win/loss/tie/bye history. -/
def rebuild_graph (t : Tournament) : List Node :=
  t.rounds.foldl (fun ns rnd => rnd.matches.foldl (fun ns m => applyMatch rnd.n ns m) ns)
    (initNodes t)

/-- Dict lookup `players[pid]` on the rebuilt node map (the default is never
hit on well-formed documents). -/
def nodeOf (ns : List Node) (pid : String) : Node :=
  (ns.find? (fun nd => nd.id = pid)).getD { id := pid, name := "" }

/-- The opponent list `p.wins + p.losses + p.ties` (wins may contain the
BYE sentinel, modelled as `none`). -/
def oppList (nd : Node) : List (Option String) :=
  nd.wins ++ nd.losses.map some ++ nd.ties.map some

/-- `opp_win_pct`: mean of opponents' match-win percentage, skipping BYEs. -/
def opp_win_pct (ns : List Node) (nd : Node) : ℚ :=
  let opps := (oppList nd).filterMap id
  if opps.length = 0 then 0
  else (opps.map (fun oid => (nodeOf ns oid).match_win_pct)).sum / (opps.length : ℚ)

/-- Round half to even at integer precision: the correct rounding performed
by Python's `round` on an exactly-represented value (ties go to the even
neighbour). -/
def rhe (q : ℚ) : ℤ :=
  if q - ⌊q⌋ = 1 / 2 then (if 2 ∣ ⌊q⌋ then ⌊q⌋ else ⌊q⌋ + 1) else round q

/-- Models `int(round(x, 3) * 1000)` under the exact-rational float model
(see the header comment): `round(x, 3) = rhe (1000x) / 1000`, so the whole
pipeline is `rhe (1000x)`. -/
def roundScaled3 (x : ℚ) : ℤ := rhe (1000 * x)

/-- `max(0, min(999, z))` followed by the (here lossless) conversion to the
digit-group value. -/
def clamp999 (z : ℤ) : ℕ := (max 0 (min 999 z)).toNat

/-- The `BBB` group of the KTS key: opponents' match-win % as a clamped
`×1000` integer. -/
def bbbOf (ns : List Node) (nd : Node) : ℕ := clamp999 (roundScaled3 (opp_win_pct ns nd))

/-- The mean `acc / nopp` of `opp_win_pct` over the (real) opponent list,
0 when there is none — the value scaled into the `CCC` group. -/
def oppOppMean (ns : List Node) (nd : Node) : ℚ :=
  let opps := (oppList nd).filterMap id
  if opps.length = 0 then 0
  else (opps.map (fun oid => opp_win_pct ns (nodeOf ns oid))).sum / (opps.length : ℚ)

/-- The `CCC` group of the KTS key. -/
def cccOf (ns : List Node) (nd : Node) : ℕ := clamp999 (roundScaled3 (oppOppMean ns nd))

/-- The `DDD` group: `min(999, sum of lost-round squares)`. -/
def dddOf (nd : Node) : ℕ := min 999 ((nd.lost_rounds.map (fun r => r * r)).sum)

/-- One standings row.  `kts` holds `int(kts_string)` where the source
builds `kts_string = f"{aa}{bbb:03}{ccc:03}{ddd:03}"`; since `bbb`, `ccc`,
`ddd` are clamped below 1000, the integer value of that zero-padded decimal
concatenation is exactly `((aa*1000+bbb)*1000+ccc)*1000+ddd`, which is how
we carry it.  The display-percentage fields (`mw`, `omw`, `oomw`, floats
rounded to one decimal for the UI) are omitted: no claim refers to them. -/
structure Row where
  player_id : String
  player : String
  pts : ℕ
  ddd : ℕ
  kts : ℕ
deriving DecidableEq, Repr

/-- The row `compute_standings` builds for one node. -/
def rowOf (ns : List Node) (nd : Node) : Row :=
  let aa := nd.match_points
  let bbb := bbbOf ns nd
  let ccc := cccOf ns nd
  let ddd := dddOf nd
  { player_id := nd.id, player := nd.name, pts := aa, ddd := ddd,
    kts := ((aa * 1000 + bbb) * 1000 + ccc) * 1000 + ddd }

/-- The unsorted row list of `compute_standings` (`nodes.values()` order =
roster order). -/
def standingsRows (t : Tournament) : List Row :=
  (rebuild_graph t).map (fun nd => rowOf (rebuild_graph t) nd)

/-- Stable insertion used to model Python's stable `list.sort`: insert `x`
(which originally came before everything in the already-sorted tail) before
the first element it compares `le` to. -/
def sInsert {α : Type} (le : α → α → Bool) (x : α) : List α → List α
  | [] => [x]
  | y :: ys => if le x y then x :: y :: ys else y :: sInsert le x ys

/-- Stable sort.  Python's `list.sort` is stable; a stable sort's output is
determined by the (total) `le` and the input, so this insertion sort is
extensionally the timsort the source runs. -/
def stableSort {α : Type} (le : α → α → Bool) : List α → List α
  | [] => []
  | x :: xs => sInsert le x (stableSort le xs)

/-- `compute_standings` final output: rows sorted by `-int(kts)` (stable). -/
def compute_standings (t : Tournament) : List Row :=
  stableSort (fun r1 r2 => decide (r2.kts ≤ r1.kts)) (standingsRows t)

/-- `pts_by_id` dict lookup with default 0 (`pts_by_id.get(pid, 0)`). -/
def ptsById (t : Tournament) (pid : String) : ℕ :=
  (((standingsRows t).find? (fun r => r.player_id = pid)).map Row.pts).getD 0

/-- `kts_by_id` dict lookup with default 0 (`kts_by_id.get(pid, 0)`). -/
def ktsById (t : Tournament) (pid : String) : ℕ :=
  (((standingsRows t).find? (fun r => r.player_id = pid)).map Row.kts).getD 0

/-- `id2name` / `name_of` dict lookup. -/
def nameOf (t : Tournament) (pid : String) : String :=
  ((t.players.find? (fun p => p.id = pid)).map Player.name).getD ""

/-- `current_round_number`: `max(round numbers, default 0)`. -/
def current_round_number (t : Tournament) : ℕ :=
  (t.rounds.map Round.n).foldr max 0

/-- `latest_round`. -/
def latest_round (t : Tournament) : Option Round := t.rounds.getLast?

/-- `round_has_pending`. -/
def round_has_pending (lastRound : Option Round) : Bool :=
  match lastRound with
  | none => false
  | some r => r.matches.any (fun m => m.r = "PENDING")

/-- Normalised unordered pair key `(a, b) if a < b else (b, a)`. -/
def normPair (a b : String) : String × String :=
  if a < b then (a, b) else (b, a)

/-- `prior_pairs_set`: every played (non-bye, truthy-`b`) pair, normalised.
The Python value is a `set`; only membership is ever used, so a list with
possible duplicates is an equivalent model. -/
def prior_pairs_set (t : Tournament) : List (String × String) :=
  t.rounds.flatMap (fun rnd =>
    rnd.matches.filterMap (fun m => (optTruthy m.b).map (fun b => normPair m.a b)))

/-- Membership in the (re-normalised) prior-pairs lookup set. -/
def isPriorB (prior : List (String × String)) (a b : String) : Bool :=
  decide (normPair a b ∈ prior)

/-- `_bye_already_from_rounds`: players whose match was a BYE
(`r == "BYE"` or `b in (None, "BYE")`), with `a` truthy. -/
def _bye_already_from_rounds (t : Tournament) : List String :=
  t.rounds.flatMap (fun rnd =>
    rnd.matches.filterMap (fun m =>
      if (m.r = "BYE" ∨ m.b = none ∨ m.b = some "BYE") ∧ m.a ≠ "" then some m.a
      else none))

/-- `_bye_history_get` (set used only for membership). -/
def _bye_history_get (t : Tournament) : List String := t.bye_history

/-- `_bye_history_add`. -/
def _bye_history_add (t : Tournament) (pid : String) : Tournament :=
  if pid = "" then t
  else if pid ∈ t.bye_history then t
  else { t with bye_history := t.bye_history ++ [pid] }

/-- The `_dedupe` helper of `_pair_brackets`: drop repeated elements,
keeping first occurrences (`seen` is the accumulated set). -/
def pyDedupeGo {α : Type} [DecidableEq α] (seen : List α) : List α → List α
  | [] => []
  | x :: xs => if x ∈ seen then pyDedupeGo seen xs else x :: pyDedupeGo (x :: seen) xs

/-- `_dedupe(seq)`. -/
def pyDedupe {α : Type} [DecidableEq α] (l : List α) : List α := pyDedupeGo [] l

/-- All ways of removing one element from a list, in position order:
`removeOne [a,b,c] = [(a,[b,c]), (b,[a,c]), (c,[a,b])]`.  This models the
scan `for j in range(i+1, n)` over not-yet-used partners together with the
state in which the chosen partner is marked used. -/
def removeOne {α : Type} : List α → List (α × List α)
  | [] => []
  | x :: xs => (x, xs) :: (removeOne xs).map (fun p => (p.1, x :: p.2))

/-- The backtracking search `bt` of `_pair_within_bracket`: pair the first
unused player with the earliest later unused partner that is neither itself
(`ai == aj` guard) nor a rematch, recursing on the rest and trying the next
partner on a dead end.  `fuel` is always called with at least the list
length, which bounds the recursion depth, so the cut-off branch is
unreachable. -/
def pairBTAux (prior : List (String × String)) : ℕ → List String → Option (List (String × String))
  | _, [] => some []
  | 0, _ :: _ => none
  | fuel + 1, a :: rest =>
    (removeOne rest).findSome? (fun p =>
      if a = p.1 then none
      else if isPriorB prior a p.1 then none
      else
        match pairBTAux prior fuel p.2 with
        | some ps => some ((a, p.1) :: ps)
        | none => none)

/-- `_pair_within_bracket(order, prior_pairs)`. -/
def _pair_within_bracket (prior : List (String × String)) (order : List String) :
    Option (List (String × String)) :=
  pairBTAux prior order.length order

/-- The `v[-1], v[-2] = v[-2], v[-1]` variant (applied when `n >= 4`). -/
def swapLast2 {α : Type} (l : List α) : List α :=
  match l.reverse with
  | x :: y :: rest => (y :: x :: rest).reverse
  | _ => l

/-- The `v[1], v[2] = v[2], v[1]` variant (applied when `n >= 4`). -/
def swap12 {α : Type} : List α → List α
  | a :: b :: c :: rest => a :: c :: b :: rest
  | l => l

/-- Elements at even positions (`v[::2]`). -/
def everyOther {α : Type} : List α → List α
  | [] => []
  | [a] => [a]
  | a :: _ :: rest => a :: everyOther rest

/-- Elements at odd positions (`v[1::2]`). -/
def oddsEO {α : Type} : List α → List α
  | [] => []
  | _ :: rest => everyOther rest

/-- The `v = v[::2] + v[1::2]` interleave variant. -/
def interleave {α : Type} (l : List α) : List α :=
  everyOther l ++ oddsEO l

/-- The `v[2], v[5] = v[5], v[2]` variant (applied when `n >= 6`). -/
def swap25 {α : Type} : List α → List α
  | a :: b :: c :: d :: e :: f :: rest => a :: b :: f :: d :: e :: c :: rest
  | l => l

/-- `try_orderings(base)`: dedupe, build the deterministic local
permutations plus one seeded shuffle, and dedupe the variant list. -/
def tryOrderings (shuffle : ℕ → List String → List String) (base0 : List String) :
    List (List String) :=
  let base := pyDedupe base0
  let n := base.length
  let variants :=
    [base]
      ++ (if 4 ≤ n then [swapLast2 base, swap12 base, interleave base] else [])
      ++ (if 6 ≤ n then [swap25 base] else [])
      ++ [shuffle (n * 911) base]
  pyDedupe variants

/-- `pair_bucket(work)`: dedupe the working set, try each ordering until the
backtracking search succeeds, then strip any self-pair
("belt-and-suspenders"; the search never produces one). -/
def pairBucket (shuffle : ℕ → List String → List String) (prior : List (String × String))
    (work0 : List String) : Option (List (String × String)) :=
  let work := pyDedupe work0
  match (tryOrderings shuffle work).findSome? (fun cand => _pair_within_bracket prior cand) with
  | some res => some (res.filter (fun p => p.1 ≠ p.2))
  | none => none

/-- The partner scan of the greedy fallback: the first later unused player
that is not a rematch (and not the player itself); failing that, the first
later unused player that is not the player itself (`best_j`). -/
def pickPartner (prior : List (String × String)) (a : String) (rest : List String) :
    Option (String × List String) :=
  match (removeOne rest).findSome?
      (fun p => if p.1 ≠ a ∧ isPriorB prior a p.1 = false then some p else none) with
  | some p => some p
  | none => (removeOne rest).findSome? (fun p => if p.1 ≠ a then some p else none)

/-- `greedy_pair()`: pair each player in order with `pickPartner`; if a
player has no remaining partner at all the whole pass fails (`return
False`), discarding the chosen pairs.  Fuel as in `pairBTAux`. -/
def greedyAux (prior : List (String × String)) : ℕ → List String → Option (List (String × String))
  | _, [] => some []
  | 0, _ :: _ => none
  | fuel + 1, a :: rest =>
    match pickPartner prior a rest with
    | none => none
    | some (b, rest') =>
      match greedyAux prior fuel rest' with
      | some ps => some ((a, b) :: ps)
      | none => none

/-- The greedy fallback over a working set. -/
def greedyPairs (prior : List (String × String)) (work : List String) :
    Option (List (String × String)) :=
  greedyAux prior work.length work

/-- The part of the bracket-loop body that runs once the parity-adjusted
working set `work` and the floated players `carry1` are determined: try the
no-repeat solver, then the borrow from the head of the next bracket, then
the greedy fallback (carrying the whole working set down when even that
fails).  `recur` is the loop's recursive continuation on the remaining
brackets. -/
def bracketStep (shuffle : ℕ → List String → List String)
    (prior : List (String × String))
    (recur : List String → List (List String) → List (String × String) × List String)
    (work carry1 : List String) (rest : List (List String)) :
    List (String × String) × List String :=
  match pairBucket shuffle prior work with
  | some res =>
    let r := recur carry1 rest
    (res ++ r.1, r.2)
  | none =>
    match rest with
    | [] =>
      match greedyPairs prior work with
      | some chosen =>
        let r := recur carry1 []
        (chosen ++ r.1, r.2)
      | none => recur (work ++ carry1) []
    | next :: rest2 =>
      if next.isEmpty then
        match greedyPairs prior work with
        | some chosen =>
          let r := recur carry1 (next :: rest2)
          (chosen ++ r.1, r.2)
        | none => recur (work ++ carry1) (next :: rest2)
      else
        let candidate := next.headD ""
        let work2 := work ++ (if candidate ∈ work then [] else [candidate])
        let odd2 := work2.length % 2 = 1
        let work2' := if odd2 then work2.dropLast else work2
        let carry2 := if odd2 then work2.getLastD "" :: carry1 else carry1
        match pairBucket shuffle prior work2' with
        | some res2 =>
          let r := recur carry2 (next.tail :: rest2)
          (res2 ++ r.1, r.2)
        | none =>
          match greedyPairs prior work with
          | some chosen =>
            let r := recur carry2 (next :: rest2)
            (chosen ++ r.1, r.2)
          | none => recur (work ++ carry2) (next :: rest2)

/-- The main bracket loop of `_pair_brackets` (`for idx, bucket in
enumerate(brackets)`), with the carried-down players threaded through and
the next bracket mutated in place by a successful borrow.  Returns the
accumulated pairs and the final carry (which the source silently drops).
`fuel` is called with the bracket-list length. -/
def bracketLoopAux (shuffle : ℕ → List String → List String)
    (prior : List (String × String)) :
    ℕ → List String → List (List String) → List (String × String) × List String
  | _, carry, [] => ([], carry)
  | 0, carry, _ :: _ => ([], carry)
  | fuel + 1, carry, bucket :: rest =>
    let work1 := pyDedupe (carry ++ bucket)
    if work1.isEmpty then bracketLoopAux shuffle prior fuel [] rest
    else
      let odd := work1.length % 2 = 1
      let work := if odd then work1.dropLast else work1
      let carry1 : List String := if odd then [work1.getLastD ""] else []
      bracketStep shuffle prior (bracketLoopAux shuffle prior fuel) work carry1 rest

/-- The `_valid(ps)` scan with its `seen_once` set made explicit. -/
def validAux : List String → List (String × String) → Bool
  | _, [] => true
  | seen, (a, b) :: ps =>
    if a = b then false
    else if b = "BYE" then
      if a ∈ seen then false else validAux (a :: seen) ps
    else if a ∈ seen ∨ b ∈ seen then false
    else validAux (b :: a :: seen) ps

/-- `_valid(ps)`: no self-pair, no player twice (a BYE entry uses only its
first component). -/
def _valid (ps : List (String × String)) : Bool := validAux [] ps

/-- `_global_backtrack(order)`: identical search to `_pair_within_bracket`
(the source duplicates the code). -/
def _global_backtrack (prior : List (String × String)) (order : List String) :
    Option (List (String × String)) :=
  pairBTAux prior order.length order

/-- The last-chance sanitizer: drop self-pairs, duplicate players and
duplicate edges, keeping everything else in order. -/
def sanitizeAux : List String → List (String × String) → List (String × String) →
    List (String × String)
  | _, _, [] => []
  | usedP, seenE, (a, b) :: ps =>
    if a = b then sanitizeAux usedP seenE ps
    else if b = "BYE" then
      if a ∈ usedP then sanitizeAux usedP seenE ps
      else (a, b) :: sanitizeAux (a :: usedP) seenE ps
    else if a ∈ usedP ∨ b ∈ usedP then sanitizeAux usedP seenE ps
    else if normPair a b ∈ seenE then sanitizeAux usedP seenE ps
    else (a, b) :: sanitizeAux (b :: a :: usedP) (normPair a b :: seenE) ps

/-- The sanitizer pass (`final`/`seen_edges`/`used_players` block). -/
def sanitizePairs (ps : List (String × String)) : List (String × String) :=
  sanitizeAux [] [] ps

/-- Find the LAST element of a list satisfying `p` and remove it (models
the `for idx in range(len(bracket)-1, -1, -1)` scan plus `del`). -/
def findRemoveLastSat {α : Type} (p : α → Bool) : List α → Option (α × List α)
  | [] => none
  | x :: xs =>
    match findRemoveLastSat p xs with
    | some (c, xs') => some (c, x :: xs')
    | none => if p x then some (x, xs) else none

/-- BYE preselection, first pass: scan brackets from the last to the first
and inside each from tail to head, picking the first candidate without a
prior BYE; remove it from its bracket. -/
def chooseByeA (byeAlready : List String) : List (List String) →
    Option (String × List (List String))
  | [] => none
  | b :: bs =>
    match chooseByeA byeAlready bs with
    | some (c, bs') => some (c, b :: bs')
    | none =>
      match findRemoveLastSat (fun x => decide (x ∉ byeAlready)) b with
      | some (c, b') => some (c, b' :: bs)
      | none => none

/-- BYE preselection, fallback when everyone already had a BYE: the last
element of the last nonempty bracket. -/
def chooseByeB : List (List String) → Option (String × List (List String))
  | [] => none
  | b :: bs =>
    match chooseByeB bs with
    | some (c, bs') => some (c, b :: bs')
    | none =>
      match findRemoveLastSat (fun _ => true) b with
      | some (c, b') => some (c, b' :: bs)
      | none => none

/-- `_pair_brackets(brackets, prior_pairs, bye_already)`: preselect the BYE
when the total is odd, run the bracket loop, validate, and on failure run
the global repair over a few seeded shuffles, falling back to the
sanitizer. -/
def pairBrackets_go (shuffle : ℕ → List String → List String)
    (prior : List (String × String)) (byePlayer : Option String)
    (brackets : List (List String)) : List (String × String) :=
  let looped := bracketLoopAux shuffle prior brackets.length [] brackets
  let pairs := looped.1 ++ (match byePlayer with | some bp => [(bp, "BYE")] | none => [])
  if _valid pairs then pairs
  else
    let pool := pyDedupe (pairs.flatMap (fun p => if p.2 = "BYE" then [] else [p.1, p.2]))
    let rebuiltOk := [123, 321, 777, 991].findSome? (fun seed =>
      let cand := shuffle seed pool
      match _global_backtrack prior cand with
      | some rebuilt =>
        if rebuilt.isEmpty then none
        else
          let rebuilt' :=
            rebuilt ++ (match byePlayer with | some bp => [(bp, "BYE")] | none => [])
          if _valid rebuilt' then some rebuilt' else none
      | none => none)
    match rebuiltOk with
    | some r => r
    | none => sanitizePairs pairs

def _pair_brackets (shuffle : ℕ → List String → List String)
    (brackets0 : List (List String)) (prior : List (String × String))
    (byeAlready : List String) : List (String × String) :=
  let total := (brackets0.map List.length).sum
  let chosen : Option String × List (List String) :=
    if total % 2 = 1 then
      match chooseByeA byeAlready brackets0 with
      | some (c, bs) => (some c, bs)
      | none =>
        match chooseByeB brackets0 with
        | some (c, bs) => (some c, bs)
        | none => (none, brackets0)
    else (none, brackets0)
  pairBrackets_go shuffle prior chosen.1 chosen.2

/-- Lexicographic `key=(pts asc, num_byes asc, kts asc, name asc)` of
`_choose_bye_id`, as a boolean `≤` for the stable sort. -/
def byeLe (t : Tournament) (x y : String) : Bool :=
  let ns := rebuild_graph t
  if ptsById t x ≠ ptsById t y then decide (ptsById t x < ptsById t y)
  else if (nodeOf ns x).num_byes ≠ (nodeOf ns y).num_byes then
    decide ((nodeOf ns x).num_byes < (nodeOf ns y).num_byes)
  else if ktsById t x ≠ ktsById t y then decide (ktsById t x < ktsById t y)
  else decide (nameOf t x ≤ nameOf t y)

/-- `_choose_bye_id`: sort everyone by the BYE key and take the head. -/
def _choose_bye_id (t : Tournament) : String :=
  (stableSort (byeLe t) (t.players.map Player.id)).headD ""

/-- Lexicographic `key=(-kts, name)` ordering inside a bracket. -/
def bracketLe (t : Tournament) (x y : String) : Bool :=
  if ktsById t x ≠ ktsById t y then decide (ktsById t y < ktsById t x)
  else decide (nameOf t x ≤ nameOf t y)

/-- `_build_brackets(ids, ...)`: group by points (`defaultdict` preserves
the first-appearance order of keys; a bucket holds its ids in input order),
emit buckets by descending points, each sorted by `(-kts, name)`. -/
def _build_brackets (t : Tournament) (ids : List String) : List (List String) :=
  let keys := pyDedupe (ids.map (ptsById t))
  let sortedKeys := stableSort (fun a b => decide (b ≤ a)) keys
  sortedKeys.map (fun k => stableSort (bracketLe t) (ids.filter (fun pid => ptsById t pid = k)))

/-- The match-record loop `for a, b in id_pairs: matches.append({...})`
with the running table counter starting at `base + 1`. -/
def matchesOfPairs (mkId : ℕ → String) (base : ℕ) (ps : List (String × String)) :
    List Match :=
  ps.enum.map (fun ip =>
    ({ id := mkId (base + ip.1 + 1), t := base + ip.1 + 1, a := ip.2.1, b := some ip.2.2,
       r := "PENDING" } : Match))

/-- The trailing BYE match of `pair_next` (`if bye_id:` — Python
truthiness, so the empty string appends nothing). -/
def byeMatchList (mkId : ℕ → String) (k : ℕ) (byeId : Option String) : List Match :=
  match byeId with
  | some b =>
    if b ≠ "" then
      [{ id := mkId (k + 1), t := k + 1, a := b, b := none, r := "BYE" }]
    else []
  | none => []

/-- The match-record loop of `pair_next_with_overrides` over the solver's
output, which may contain a `(p, "BYE")` entry. -/
def restMatches (mkId : ℕ → String) (base : ℕ) (ps : List (String × String)) :
    List Match :=
  ps.enum.map (fun ip =>
    if ip.2.2 = "BYE" then
      ({ id := mkId (base + ip.1 + 1), t := base + ip.1 + 1, a := ip.2.1, b := none,
         r := "BYE" } : Match)
    else
      ({ id := mkId (base + ip.1 + 1), t := base + ip.1 + 1, a := ip.2.1, b := some ip.2.2,
         r := "PENDING" } : Match))

/-- `pair_next(t)`: remove the BYE recipient when the roster is odd, build
brackets, solve, and emit the match records (tables numbered from 1, the
BYE match appended last). -/
def pair_next (shuffle : ℕ → List String → List String) (mkId : ℕ → String)
    (t : Tournament) : ℕ × List Match :=
  let prior := prior_pairs_set t
  let allIds0 := t.players.map Player.id
  let byeId : Option String :=
    if allIds0.length % 2 = 1 then some (_choose_bye_id t) else none
  let allIds := match byeId with
    | some b => allIds0.filter (fun pid => pid ≠ b)
    | none => allIds0
  let brackets := _build_brackets t allIds
  let idPairs := _pair_brackets shuffle brackets prior []
  let rndNo := current_round_number t + 1
  (rndNo, matchesOfPairs mkId 0 idPairs ++ byeMatchList mkId idPairs.length byeId)

/-- Result of `restart_current_round_doc`: `(None, message)` or
`(round_no, matches)` together with the document as mutated by the `pop`. -/
inductive RestartResult where
  | err (msg : String)
  | ok (rndNo : ℕ) (ms : List Match) (t' : Tournament)
deriving Repr

/-- `restart_current_round_doc(t)`: refuse without a round or with a
finalized round, else pop the active round and re-pair via `pair_next`. -/
def restart_current_round_doc (shuffle : ℕ → List String → List String)
    (mkId : ℕ → String) (t : Tournament) : RestartResult :=
  match latest_round t with
  | none => .err "no round to restart"
  | some last =>
    if round_has_pending (some last) = false then .err "round already finalized"
    else
      let t' := { t with rounds := t.rounds.dropLast }
      let nm := pair_next shuffle mkId t'
      .ok nm.1 nm.2 t'

/-- Outcome of a round-producing endpoint: a refusal message (the document
is not persisted) or the updated document plus the round number. -/
inductive RoundOp where
  | refused (msg : String)
  | paired (t' : Tournament) (rndNo : ℕ)
deriving Repr

/-- `api_pair_next` (the KV read/write stripped): refuse while the latest
round has a PENDING match or when the round budget is exhausted, otherwise
append the newly paired round. -/
def api_pair_next (shuffle : ℕ → List String → List String) (mkId : ℕ → String)
    (t : Tournament) : RoundOp :=
  if round_has_pending (latest_round t) then
    .refused "Finalize the current round before pairing the next."
  else if t.total_rounds ≤ current_round_number t then
    .refused "All rounds completed."
  else
    let nm := pair_next shuffle mkId t
    .paired { t with rounds := t.rounds ++ [{ n := nm.1, «matches» := nm.2 }] } nm.1

/-- `api_restart_round` (KV stripped): validate, run
`restart_current_round_doc`, and append the regenerated round to the popped
document. -/
def api_restart_round (shuffle : ℕ → List String → List String) (mkId : ℕ → String)
    (t : Tournament) : RoundOp :=
  match latest_round t with
  | none => .refused "No round to restart."
  | some last =>
    if round_has_pending (some last) = false then
      .refused "Round already finalized; cannot restart."
    else
      match restart_current_round_doc shuffle mkId t with
      | .err msg => .refused msg
      | .ok rndNo ms t' =>
        .paired { t' with rounds := t'.rounds ++ [{ n := rndNo, «matches» := ms }] } rndNo

/-- One `{match_id, outcome}` update of `api_finalize_round`: outcomes
outside `("A","B","TIE")` and unknown ids are ignored; a known id sets the
match outcome. -/
def applyResult (ms : List Match) (ru : String × String) : List Match :=
  if ru.2 = "A" ∨ ru.2 = "B" ∨ ru.2 = "TIE" then
    ms.map (fun m => if m.id = ru.1 then { m with r := ru.2 } else m)
  else ms

/-- `api_finalize_round` (KV stripped): `none` models the 400 responses
(empty results / no rounds); otherwise the batch is applied to the last
round's matches. -/
def api_finalize_round (t : Tournament) (results : List (String × String)) :
    Option Tournament :=
  if results.isEmpty then none
  else if t.rounds.isEmpty then none
  else
    let last := t.rounds.getLastD { n := 0, «matches» := [] }
    some { t with rounds := t.rounds.dropLast ++
      [{ last with «matches» := results.foldl applyResult last.matches }] }

/-- One step of the locked-pair sanitation loop of `pair_next_with_overrides`
(dropping empty/self/unknown/duplicated entries, accumulating the flat set). -/
def lockedStep (allIds : List String) (acc : List (String × String) × List String)
    (ab : String × String) : List (String × String) × List String :=
  if ab.1 = "" ∨ ab.2 = "" ∨ ab.1 = ab.2 then acc
  else if ab.1 ∈ allIds ∧ ab.2 ∈ allIds ∧ ab.1 ∉ acc.2 ∧ ab.2 ∉ acc.2 then
    (acc.1 ++ [ab], ab.2 :: ab.1 :: acc.2)
  else acc

/-- `pair_next_with_overrides(t, locked_pairs)`: sanitize the forced pairs,
remove the locked players from the pool, solve the rest (with the
BYE-avoidance set), and emit the locked matches first.  Returns the round
number, the matches, and the document as mutated by `_bye_history_add`. -/
def pair_next_with_overrides (shuffle : ℕ → List String → List String)
    (mkId : ℕ → String) (t : Tournament) (lockedPairs : List (String × String)) :
    ℕ × List Match × Tournament :=
  let prior := prior_pairs_set t
  let allIds := pyDedupe (t.players.map Player.id)
  let sanitized := lockedPairs.foldl (lockedStep allIds) ([], [])
  let sanitizedLocked := sanitized.1
  let lockedFlat := sanitized.2
  let remaining := allIds.filter (fun pid => pid ∉ lockedFlat)
  let brackets := _build_brackets t remaining
  let byeAlready := _bye_already_from_rounds t ++ _bye_history_get t
  let idPairsRest := _pair_brackets shuffle brackets prior byeAlready
  let rndNo := current_round_number t + 1
  let lockedMs := matchesOfPairs mkId 0 sanitizedLocked
  let restMs := restMatches mkId sanitizedLocked.length idPairsRest
  let byeRecipient := ((idPairsRest.filter (fun p => p.2 = "BYE")).map Prod.fst).getLast?
  let t' := match byeRecipient with
    | some a => if a ≠ "" then _bye_history_add t a else t
    | none => t
  (rndNo, lockedMs ++ restMs, t')

/-! ## Derived predicates and parsing helpers used by the claim statements -/

/-- The points prefix of the composite key (everything above the nine
fixed digits). -/
def ktsPts (k : ℕ) : ℕ := k / 1000000000

/-- The first fixed 3-digit group (opponents' win %). -/
def ktsB (k : ℕ) : ℕ := k / 1000000 % 1000

/-- The second fixed 3-digit group (opponents' opponents' win %). -/
def ktsC (k : ℕ) : ℕ := k / 1000 % 1000

/-- The last fixed 3-digit group (loss penalty). -/
def ktsD (k : ℕ) : ℕ := k % 1000

/-- All competitor ids occurring in a round's match list (`b` contributes
only when present). -/
def roundPlayers (ms : List Match) : List String :=
  ms.flatMap (fun m => m.a :: m.b.toList)

/-- A round's match list is a valid matching: no match pairs a competitor
with themselves, and no competitor appears in two matches. -/
def matchingValidR (ms : List Match) : Prop :=
  (∀ m ∈ ms, ∀ x, m.b = some x → m.a ≠ x) ∧ (roundPlayers ms).Nodup

/-- Players of a solver pair list (a `(p, "BYE")` entry contributes only
`p`, mirroring `_valid`). -/
def playersB (ps : List (String × String)) : List String :=
  ps.flatMap (fun p => if p.2 = "BYE" then [p.1] else [p.1, p.2])

/-- Both components of every pair. -/
def flatPairs (ps : List (String × String)) : List String :=
  ps.flatMap (fun p => [p.1, p.2])

/-- The spec's match invariant: `outcome = BYE ⇔ competitor_b is absent`. -/
def byeConsistent (m : Match) : Prop := m.r = "BYE" ↔ m.b = none

instance (m : Match) : Decidable (byeConsistent m) := by
  unfold byeConsistent
  infer_instance

/-- Adjacent pairs `(l[0],l[1]), (l[2],l[3]), …` of a list — the shape the
backtracking solver produces when no rematch constraint ever bites. -/
def adjacentPairs : List String → List (String × String)
  | a :: b :: rest => (a, b) :: adjacentPairs rest
  | _ => []

/-- Modelled from the spec: "Rounding of the ×1000 values uses standard
round-half-away-from-zero at 3 decimal places before scaling" — the value
`round_half_away(x, 3) * 1000` as an integer. -/
def specRoundHalfAway3 (x : ℚ) : ℤ :=
  if 0 ≤ x then ⌊1000 * x + 1 / 2⌋ else -⌊-(1000 * x) + 1 / 2⌋

/-- The percentage group value the spec prescribes (clamped to `[0, 999]`). -/
def specPctGroup (x : ℚ) : ℕ := clamp999 (specRoundHalfAway3 x)

/-- Modelled from the spec: "round 1 is a pure random shuffle with a random
bye instead of Swiss logic" — pair the shuffled roster adjacently (the only
reading of "pure random shuffle" as a pairing).  Used solely to compare
against what `pair_next` actually does on a round-1 document. -/
def specRound1ShuffleMatches (shuffle : ℕ → List String → List String) (seed : ℕ)
    (mkId : ℕ → String) (t : Tournament) : List Match :=
  (adjacentPairs (shuffle seed (t.players.map Player.id))).enum.map (fun ip =>
    ({ id := mkId (ip.1 + 1), t := ip.1 + 1, a := ip.2.1, b := some ip.2.2,
       r := "PENDING" } : Match))

/-! ## Concrete documents and parameters for witnesses and counterexamples -/

/-- The identity random source (a legitimate permutation draw). -/
def idShuffle : ℕ → List String → List String := fun _ l => l

/-- The reversing random source (a legitimate permutation draw). -/
def revShuffle : ℕ → List String → List String := fun _ l => l.reverse

/-- A deterministic match-id generator standing in for `new_id("m")`. -/
def mkM : ℕ → String := fun k => "m" ++ toString k

/-- Shorthand for a match record. -/
def exM (i : String) (tb : ℕ) (a : String) (b : Option String) (r : String) : Match :=
  { id := i, t := tb, a := a, b := b, r := r }

/-- A fresh 4-player tournament (no rounds yet). -/
def docFour : Tournament :=
  { name := "t", total_rounds := 3,
    players := [{ id := "p1", name := "bob" }, { id := "p2", name := "alice" },
                { id := "p3", name := "dave" }, { id := "p4", name := "carol" }],
    rounds := [] }

/-- A 10-player document whose player `P` has opponents' win percentage
exactly `1/16` (so the `×1000` value `62.5` is a rounding tie): `P` beat
`B` (match-win 0) and lost to `A` (match-win `1/8`: one win, seven losses). -/
def docTie : Tournament :=
  { name := "d", total_rounds := 9,
    players := [{ id := "P", name := "pp" }, { id := "A", name := "aa" },
                { id := "B", name := "bb" }, { id := "C1", name := "c1" },
                { id := "C2", name := "c2" }, { id := "C3", name := "c3" },
                { id := "C4", name := "c4" }, { id := "C5", name := "c5" },
                { id := "C6", name := "c6" }, { id := "C7", name := "c7" }],
    rounds := [{ n := 1, «matches» :=
      [exM "m1" 1 "A" (some "P") "A",
       exM "m2" 2 "P" (some "B") "A",
       exM "m3" 3 "A" (some "C1") "B",
       exM "m4" 4 "A" (some "C2") "B",
       exM "m5" 5 "A" (some "C3") "B",
       exM "m6" 6 "A" (some "C4") "B",
       exM "m7" 7 "A" (some "C5") "B",
       exM "m8" 8 "A" (some "C6") "B",
       exM "m9" 9 "A" (some "C7") "B"] }] }

/-- A 4-player document in which every possible pair has already met. -/
def docRematch : Tournament :=
  { name := "r", total_rounds := 9,
    players := [{ id := "p1", name := "a" }, { id := "p2", name := "b" },
                { id := "p3", name := "c" }, { id := "p4", name := "d" }],
    rounds := [{ n := 1, «matches» :=
        [exM "m1" 1 "p1" (some "p2") "A", exM "m2" 2 "p3" (some "p4") "A"] },
      { n := 2, «matches» :=
        [exM "m3" 1 "p1" (some "p3") "A", exM "m4" 2 "p2" (some "p4") "A"] },
      { n := 3, «matches» :=
        [exM "m5" 1 "p1" (some "p4") "A", exM "m6" 2 "p2" (some "p3") "A"] }] }

/-- A 3-player document with an active round containing a BYE match. -/
def docByeActive : Tournament :=
  { name := "b", total_rounds := 3,
    players := [{ id := "p1", name := "a" }, { id := "p2", name := "b" },
                { id := "p3", name := "c" }],
    rounds := [{ n := 1, «matches» :=
      [exM "m1" 1 "p1" (some "p2") "PENDING", exM "m2" 2 "p3" none "BYE"] }] }

/-- The node `rebuild_graph docTie` produces for player `P`. -/
def nodePLit : Node := ⟨"P", "pp", [some "B"], ["A"], [], [1]⟩

/-- The node `rebuild_graph docTie` produces for player `A`. -/
def nodeALit : Node :=
  ⟨"A", "aa", [some "P"], ["C1", "C2", "C3", "C4", "C5", "C6", "C7"], [],
    [1, 1, 1, 1, 1, 1, 1]⟩

/-- The node `rebuild_graph docTie` produces for player `B`. -/
def nodeBLit : Node := ⟨"B", "bb", [], ["P"], [], [1]⟩

/-- A 4-player document with one completed round and one active round. -/
def docActive2 : Tournament :=
  { name := "t", total_rounds := 3,
    players := [{ id := "p1", name := "bob" }, { id := "p2", name := "alice" },
                { id := "p3", name := "dave" }, { id := "p4", name := "carol" }],
    rounds := [{ n := 1, «matches» :=
        [exM "m1" 1 "p2" (some "p1") "A", exM "m2" 2 "p4" (some "p3") "B"] },
      { n := 2, «matches» :=
        [exM "m3" 1 "p2" (some "p4") "PENDING", exM "m4" 2 "p1" (some "p3") "PENDING"] }] }

/-- The bye match of `docByeActive` after `finalize-round` is fed its id
with outcome `"A"`: a match with no opponent but a non-BYE outcome. -/
def byeBrokenMatch : Match := exM "m2" 2 "p3" none "A"

/-- What `api_finalize_round docByeActive [("m2", "A")]` produces. -/
def docByeBroken : Tournament :=
  { docByeActive with rounds :=
      [{ n := 1, «matches» := [exM "m1" 1 "p1" (some "p2") "PENDING", byeBrokenMatch] }] }

/-- What `api_finalize_round docByeActive [("m1", "A")]` (a batch touching
only the real match) produces. -/
def docByeFin : Tournament :=
  { docByeActive with rounds :=
      [{ n := 1, «matches» := [exM "m1" 1 "p1" (some "p2") "A", exM "m2" 2 "p3" none "BYE"] }] }

/-! ## Lemmas: scoring -/

theorem clamp999_le (z : ℤ) : clamp999 z ≤ 999 := by
  unfold clamp999; omega

theorem dddOf_le (nd : Node) : dddOf nd ≤ 999 := Nat.min_le_left _ _

theorem rowOf_kts_eq (ns : List Node) (nd : Node) :
    (rowOf ns nd).kts
      = ((nd.match_points * 1000 + bbbOf ns nd) * 1000 + cccOf ns nd) * 1000 + dddOf nd := rfl

theorem rowOf_pts_eq (ns : List Node) (nd : Node) : (rowOf ns nd).pts = nd.match_points := rfl

theorem rowOf_ddd_eq (ns : List Node) (nd : Node) : (rowOf ns nd).ddd = dddOf nd := rfl

theorem wins_split (l : List (Option String)) :
    (l.filter (fun w => w ≠ none)).length + (l.filter (fun w => w = none)).length = l.length := by
  induction l with
  | nil => simp
  | cons x xs ih =>
    cases x with
    | none =>
      have hl : ((none :: xs : List (Option String)).filter (fun w => w ≠ none))
          = xs.filter (fun w => w ≠ none) := rfl
      have hr : ((none :: xs : List (Option String)).filter (fun w => w = none))
          = none :: xs.filter (fun w => w = none) := rfl
      rw [hl, hr, List.length_cons, List.length_cons]
      omega
    | some a =>
      have hl : ((some a :: xs : List (Option String)).filter (fun w => w ≠ none))
          = some a :: xs.filter (fun w => w ≠ none) := rfl
      have hr : ((some a :: xs : List (Option String)).filter (fun w => w = none))
          = xs.filter (fun w => w = none) := rfl
      rw [hl, hr, List.length_cons, List.length_cons]
      omega

theorem nodeOf_fieldPreserved (g : Node → Node) (F : Node → List (Option String))
    (hid : ∀ nd, (g nd).id = nd.id) (hF : ∀ nd, F (g nd) = F nd)
    (ns : List Node) (q : String) :
    F (nodeOf (ns.map g) q) = F (nodeOf ns q) := by
  induction ns with
  | nil => rfl
  | cons x xs ih =>
    by_cases hq : x.id = q
    · have h1 : nodeOf (List.map g (x :: xs)) q = g x := by
        simp [nodeOf, List.find?, hid, hq]
      have h2 : nodeOf (x :: xs) q = x := by
        simp [nodeOf, List.find?, hq]
      rw [h1, h2, hF]
    · have h1 : nodeOf (List.map g (x :: xs)) q = nodeOf (List.map g xs) q := by
        simp [nodeOf, List.find?, hid, hq]
      have h2 : nodeOf (x :: xs) q = nodeOf xs q := by
        simp [nodeOf, List.find?, hq]
      rw [h1, h2, ih]

theorem nodeOf_updNode_wins (ns : List Node) (p : String) (f : Node → Node)
    (hid : ∀ nd, (f nd).id = nd.id) (hw : ∀ nd, (f nd).wins = nd.wins) (q : String) :
    (nodeOf (updNode ns p f) q).wins = (nodeOf ns q).wins := by
  unfold updNode
  exact nodeOf_fieldPreserved _ Node.wins
    (fun nd => by by_cases h : nd.id = p <;> simp [h, hid])
    (fun nd => by by_cases h : nd.id = p <;> simp [h, hw]) ns q

theorem applyMatch_tie_wins (n : ℕ) (ns : List Node) (m : Match) (hm : m.r = "TIE")
    (q : String) : (nodeOf (applyMatch n ns m) q).wins = (nodeOf ns q).wins := by
  unfold applyMatch
  rw [hm, if_neg (by decide), if_neg (by decide)]
  cases hob : optTruthy m.b with
  | none => rfl
  | some b =>
    simp only []
    rw [if_neg (by decide), if_neg (by decide), if_pos trivial]
    have e2 :=
      nodeOf_updNode_wins (updNode ns m.a (fun nd => { nd with ties := nd.ties ++ [b] }))
        b (fun nd => { nd with ties := nd.ties ++ [m.a] }) (fun nd => rfl) (fun nd => rfl) q
    have e1 :=
      nodeOf_updNode_wins ns m.a (fun nd => { nd with ties := nd.ties ++ [b] })
        (fun nd => rfl) (fun nd => rfl) q
    rw [e2, e1]

/-- C2: for every competitor in any tournament document the points reported
by the standings are `3 × (real wins + bye wins)` (a bye counts as a win
for points), and recording a `TIE` outcome increases points for neither
side (appending a tie match to the last round changes nobody's points). -/
theorem claim_C2_points :
    (∀ (t : Tournament) (pid : String),
        (nodeOf (rebuild_graph t) pid).match_points
          = 3 * ((nodeOf (rebuild_graph t) pid).wins_excl_bye
                  + (nodeOf (rebuild_graph t) pid).num_byes))
    ∧ (∀ (t : Tournament), (standingsRows t).map Row.pts
          = (rebuild_graph t).map Node.match_points)
    ∧ (∀ (t : Tournament) (rs : List Round) (n : ℕ) (ms : List Match) (m : Match),
        m.r = "TIE" → ∀ pid,
        (nodeOf (rebuild_graph
            { t with rounds := rs ++ [{ n := n, «matches» := ms ++ [m] }] }) pid).match_points
          = (nodeOf (rebuild_graph
            { t with rounds := rs ++ [{ n := n, «matches» := ms }] }) pid).match_points) := by
  refine ⟨?_, ?_, ?_⟩
  · intro t pid
    unfold Node.match_points Node.wins_excl_bye Node.num_byes
    rw [wins_split]
  · intro t
    unfold standingsRows
    rw [List.map_map]
    rfl
  · intro t rs n ms m hm pid
    have hsplit : ∀ (msx : List Match),
        rebuild_graph { t with rounds := rs ++ [{ n := n, «matches» := msx }] }
          = msx.foldl (fun ns mm => applyMatch n ns mm)
              (rs.foldl (fun ns rnd => rnd.matches.foldl (fun ns mm => applyMatch rnd.n ns mm) ns)
                (initNodes t)) := by
      intro msx
      unfold rebuild_graph
      rw [List.foldl_append]
      rfl
    rw [hsplit, hsplit, List.foldl_append]
    simp only [List.foldl_cons, List.foldl_nil]
    unfold Node.match_points
    rw [applyMatch_tie_wins n _ m hm pid]

/-- Witness for C2 at a concrete input: appending a concrete tie match to a
fresh round leaves the concrete player's points unchanged. -/
theorem claim_C2_points_witness :
    (exM "mx" 1 "p1" (some "p2") "TIE").r = "TIE"
    ∧ (nodeOf (rebuild_graph
        { docFour with rounds := [] ++ [{ n := 1, «matches» :=
            [] ++ [exM "mx" 1 "p1" (some "p2") "TIE"] }] }) "p1").match_points
      = (nodeOf (rebuild_graph
        { docFour with rounds := [] ++ [{ n := 1, «matches» := ([] : List Match) }] })
          "p1").match_points :=
  ⟨by decide, claim_C2_points.2.2 docFour [] 1 [] (exM "mx" 1 "p1" (some "p2") "TIE")
    (by decide) "p1"⟩

theorem kts_parse_groups (ns : List Node) (nd : Node) :
    ktsPts (rowOf ns nd).kts = (rowOf ns nd).pts
    ∧ ktsB (rowOf ns nd).kts = bbbOf ns nd
    ∧ ktsC (rowOf ns nd).kts = cccOf ns nd
    ∧ ktsD (rowOf ns nd).kts = (rowOf ns nd).ddd := by
  have hb : bbbOf ns nd ≤ 999 := clamp999_le _
  have hc : cccOf ns nd ≤ 999 := clamp999_le _
  have hd : dddOf nd ≤ 999 := dddOf_le nd
  rw [rowOf_pts_eq, rowOf_ddd_eq]
  unfold ktsPts ktsB ktsC ktsD
  rw [rowOf_kts_eq]
  refine ⟨?_, ?_, ?_, ?_⟩ <;> omega

/-- C7: parsing the composite tie-break key of any standings row back into
its four groups (variable-width points prefix, then three fixed 3-digit
groups) recovers exactly the points, the clamped opponents'-win% integer,
the clamped opponents'-opponents'-win% integer, and the clamped loss
penalty that produced it. -/
theorem claim_C7_kts_roundtrip (ns : List Node) (nd : Node) :
    ktsPts (rowOf ns nd).kts = (rowOf ns nd).pts
    ∧ ktsB (rowOf ns nd).kts = bbbOf ns nd
    ∧ ktsC (rowOf ns nd).kts = cccOf ns nd
    ∧ ktsD (rowOf ns nd).kts = (rowOf ns nd).ddd :=
  kts_parse_groups ns nd

/-- C5 (amended): the two 3-digit percentage groups of the composite key
equal the percentage multiplied by 1000 and rounded with Python's
ties-to-even rounding (under the exact-rational float model), clamped to
`[0, 999]` — rounding is half-to-even, not half-away-from-zero. -/
theorem claim_C5_amended (ns : List Node) (nd : Node) :
    ktsB (rowOf ns nd).kts = clamp999 (rhe (1000 * opp_win_pct ns nd))
    ∧ ktsC (rowOf ns nd).kts = clamp999 (rhe (1000 * oppOppMean ns nd)) :=
  ⟨(kts_parse_groups ns nd).2.1, (kts_parse_groups ns nd).2.2.1⟩

theorem docTie_nodeP : nodeOf (rebuild_graph docTie) "P" = nodePLit := by decide

theorem docTie_nodeA : nodeOf (rebuild_graph docTie) "A" = nodeALit := by decide

theorem docTie_nodeB : nodeOf (rebuild_graph docTie) "B" = nodeBLit := by decide

theorem mwB_val : Node.match_win_pct nodeBLit = 0 := by
  unfold Node.match_win_pct
  rw [if_neg (by decide)]
  rw [show Node.wins_excl_bye nodeBLit = 0 from by decide]
  norm_num

theorem mwA_val : Node.match_win_pct nodeALit = 1 / 8 := by
  unfold Node.match_win_pct
  rw [if_neg (by decide)]
  rw [show Node.wins_excl_bye nodeALit = 1 from by decide,
      show Node.matches_played_excl_bye nodeALit = 8 from by decide]
  norm_num

theorem docTie_owp :
    opp_win_pct (rebuild_graph docTie) (nodeOf (rebuild_graph docTie) "P") = 1 / 16 := by
  rw [docTie_nodeP]
  have h0 : opp_win_pct (rebuild_graph docTie) nodePLit
      = ((nodeOf (rebuild_graph docTie) "B").match_win_pct
          + ((nodeOf (rebuild_graph docTie) "A").match_win_pct + 0)) / 2 := rfl
  rw [h0, docTie_nodeB, docTie_nodeA, mwB_val, mwA_val]
  norm_num

theorem rhe_of_125_half : rhe (125 / 2 : ℚ) = 62 := by
  have hfl : ⌊(125 / 2 : ℚ)⌋ = 62 := by
    rw [Int.floor_eq_iff]
    norm_num
  unfold rhe
  rw [hfl, if_pos (by norm_num), if_pos (by decide)]

/-- C5 (counterexample): in `docTie` player `P`'s opponents'-win% is exactly
`1/16`; the key's `BBB` group is 62 (ties-to-even on the tie 62.5), while
the spec's round-half-away-from-zero rule prescribes 63. -/
theorem claim_C5_counterexample :
    opp_win_pct (rebuild_graph docTie) (nodeOf (rebuild_graph docTie) "P") = 1 / 16
    ∧ ktsB (rowOf (rebuild_graph docTie) (nodeOf (rebuild_graph docTie) "P")).kts = 62
    ∧ specPctGroup
        (opp_win_pct (rebuild_graph docTie) (nodeOf (rebuild_graph docTie) "P")) = 63 := by
  refine ⟨docTie_owp, ?_, ?_⟩
  · rw [(kts_parse_groups _ _).2.1]
    unfold bbbOf roundScaled3
    rw [docTie_owp]
    rw [show ((1000 : ℚ) * (1 / 16)) = 125 / 2 by norm_num, rhe_of_125_half]
    decide
  · rw [docTie_owp]
    unfold specPctGroup specRoundHalfAway3
    rw [if_pos (by norm_num)]
    rw [show ((1000 : ℚ) * (1 / 16) + 1 / 2) = 63 by norm_num]
    rw [show ⌊(63 : ℚ)⌋ = 63 from Int.floor_intCast 63]
    decide

/-! ## Lemmas: round lifecycle (C8, C9) -/

theorem foldr_max_range' (k : ℕ) : ∀ s : ℕ,
    (List.range' s k).foldr max 0 = if k = 0 then 0 else s + k - 1 := by
  induction k with
  | zero => intro s; simp
  | succ j ih =>
    intro s
    rw [List.range'_succ, List.foldr_cons, ih (s + 1)]
    cases j with
    | zero => simp
    | succ i => simp only [Nat.succ_ne_zero, if_false]; omega

theorem current_round_number_of_range' (t : Tournament) (k : ℕ)
    (h : t.rounds.map Round.n = List.range' 1 k) : current_round_number t = k := by
  unfold current_round_number
  rw [h, foldr_max_range']
  cases k <;> simp

/-- C9: `api_pair_next` refuses (no round appended, document unchanged)
exactly when the latest round still has a `PENDING` match or the round
counter has reached `total_rounds`; otherwise it appends exactly one new
round numbered `current_round_number + 1` and touches nothing else. -/
theorem claim_C9_pair_next_guard (shuffle : ℕ → List String → List String)
    (mkId : ℕ → String) (t : Tournament) :
    ((∃ msg, api_pair_next shuffle mkId t = .refused msg)
      ↔ (round_has_pending (latest_round t) = true
          ∨ t.total_rounds ≤ current_round_number t))
    ∧ (round_has_pending (latest_round t) = false →
        current_round_number t < t.total_rounds →
        api_pair_next shuffle mkId t
          = .paired
              { t with rounds := t.rounds
                  ++ [{ n := current_round_number t + 1,
                        «matches» := (pair_next shuffle mkId t).2 }] }
              (current_round_number t + 1)) := by
  unfold api_pair_next
  by_cases h1 : round_has_pending (latest_round t)
  · rw [if_pos h1]
    refine ⟨⟨fun _ => Or.inl h1, fun _ => ⟨_, rfl⟩⟩, fun hf _ => ?_⟩
    rw [h1] at hf
    exact absurd hf (by decide)
  · rw [if_neg h1]
    by_cases h2 : t.total_rounds ≤ current_round_number t
    · rw [if_pos h2]
      refine ⟨⟨fun _ => Or.inr h2, fun _ => ⟨_, rfl⟩⟩, fun _ hlt => absurd h2 (by omega)⟩
    · rw [if_neg h2]
      refine ⟨⟨fun hex => ?_, fun hor => ?_⟩, fun _ _ => rfl⟩
      · obtain ⟨msg, hmsg⟩ := hex
        exact RoundOp.noConfusion hmsg
      · rcases hor with hp | hc
        · exact absurd hp (by simp [h1])
        · exact absurd hc h2

/-- Witness for C9 at concrete inputs: a fresh document gets round 1
appended; a document with an active round is refused. -/
theorem claim_C9_pair_next_guard_witness :
    api_pair_next idShuffle mkM docFour
      = .paired
          { docFour with rounds := docFour.rounds
              ++ [{ n := current_round_number docFour + 1,
                    «matches» := (pair_next idShuffle mkM docFour).2 }] }
          (current_round_number docFour + 1)
    ∧ (∃ msg, api_pair_next idShuffle mkM docActive2 = .refused msg) :=
  ⟨(claim_C9_pair_next_guard idShuffle mkM docFour).2 (by decide) (by decide),
   (claim_C9_pair_next_guard idShuffle mkM docActive2).1.mpr (Or.inl (by decide))⟩

theorem api_restart_round_some (shuffle : ℕ → List String → List String)
    (mkId : ℕ → String) (t : Tournament) (last : Round)
    (h : latest_round t = some last) :
    api_restart_round shuffle mkId t
      = if round_has_pending (some last) = false then
          RoundOp.refused "Round already finalized; cannot restart."
        else
          match restart_current_round_doc shuffle mkId t with
          | .err msg => .refused msg
          | .ok rndNo ms t' =>
            .paired { t' with rounds := t'.rounds ++ [{ n := rndNo, «matches» := ms }] }
              rndNo := by
  unfold api_restart_round
  rw [h]

theorem restart_current_round_doc_some (shuffle : ℕ → List String → List String)
    (mkId : ℕ → String) (t : Tournament) (last : Round)
    (h : latest_round t = some last) :
    restart_current_round_doc shuffle mkId t
      = if round_has_pending (some last) = false then .err "round already finalized"
        else
          .ok (pair_next shuffle mkId { t with rounds := t.rounds.dropLast }).1
            (pair_next shuffle mkId { t with rounds := t.rounds.dropLast }).2
            { t with rounds := t.rounds.dropLast } := by
  unfold restart_current_round_doc
  rw [h]

/-- C8: `restart-round` refuses (document unchanged) when there is no round
or the latest round has no `PENDING` match; on a document whose rounds are
`R1..Rk` (numbered 1..k) followed by an active round, it keeps the roster
and `R1..Rk` untouched and produces a new round numbered `k + 1`, paired
against the document as it stood before the active round. -/
theorem claim_C8_restart_frame (shuffle : ℕ → List String → List String)
    (mkId : ℕ → String) :
    (∀ t : Tournament, t.rounds = [] →
        api_restart_round shuffle mkId t = .refused "No round to restart.")
    ∧ (∀ (t : Tournament) (last : Round), latest_round t = some last →
        round_has_pending (some last) = false →
        api_restart_round shuffle mkId t
          = .refused "Round already finalized; cannot restart.")
    ∧ (∀ (t : Tournament) (prior : List Round) (act : Round) (k : ℕ),
        t.rounds = prior ++ [act] →
        prior.map Round.n = List.range' 1 k →
        round_has_pending (some act) = true →
        api_restart_round shuffle mkId t
          = .paired
              { t with rounds := prior
                  ++ [{ n := k + 1,
                        «matches» :=
                          (pair_next shuffle mkId { t with rounds := prior }).2 }] }
              (k + 1)) := by
  refine ⟨?_, ?_, ?_⟩
  · intro t ht
    unfold api_restart_round latest_round
    rw [ht]
    rfl
  · intro t last hlast hpend
    rw [api_restart_round_some shuffle mkId t last hlast, if_pos hpend]
  · intro t prior act k ht hnums hpend
    have hlast : latest_round t = some act := by
      unfold latest_round
      rw [ht, List.getLast?_concat]
    have hdrop : t.rounds.dropLast = prior := by
      rw [ht, List.dropLast_concat]
    have hcur : current_round_number { t with rounds := prior } = k :=
      current_round_number_of_range' _ k hnums
    rw [api_restart_round_some shuffle mkId t act hlast,
        if_neg (by rw [hpend]; exact (by decide)),
        restart_current_round_doc_some shuffle mkId t act hlast,
        if_neg (by rw [hpend]; exact (by decide)), hdrop]
    have hn : (pair_next shuffle mkId { t with rounds := prior }).1 = k + 1 := by
      rw [show (pair_next shuffle mkId { t with rounds := prior }).1
          = current_round_number { t with rounds := prior } + 1 from rfl, hcur]
    simp only []
    rw [hn]

/-- Witness for C8 at concrete inputs: the two refusal branches and the
frame/renumbering of a successful restart on `docActive2` (one completed
round `R1`, one active round). -/
theorem claim_C8_restart_frame_witness :
    api_restart_round idShuffle mkM docFour = .refused "No round to restart."
    ∧ api_restart_round idShuffle mkM docRematch
        = .refused "Round already finalized; cannot restart."
    ∧ api_restart_round idShuffle mkM docActive2
        = .paired
            { docActive2 with rounds := [docActive2.rounds.headD { n := 0, «matches» := [] }]
                ++ [{ n := 2,
                      «matches» :=
                        (pair_next idShuffle mkM
                          { docActive2 with
                            rounds := [docActive2.rounds.headD { n := 0, «matches» := [] }] }).2 }] }
            2 :=
  ⟨(claim_C8_restart_frame idShuffle mkM).1 docFour rfl,
   (claim_C8_restart_frame idShuffle mkM).2.1 docRematch
     (docRematch.rounds.getLastD { n := 0, «matches» := [] }) (by decide) (by decide),
   (claim_C8_restart_frame idShuffle mkM).2.2 docActive2
     [docActive2.rounds.headD { n := 0, «matches» := [] }]
     (docActive2.rounds.getLastD { n := 0, «matches» := [] }) 1 (by decide) (by decide)
     (by decide)⟩

/-! ## Lemmas: the BYE/`competitor_b` invariant (C4) -/

theorem byeConsistent_matchesOfPairs (mkId : ℕ → String) (base : ℕ)
    (ps : List (String × String)) : ∀ m ∈ matchesOfPairs mkId base ps, byeConsistent m := by
  intro m hm
  obtain ⟨ip, _, rfl⟩ := List.mem_map.mp hm
  exact ⟨fun hr => by simp at hr, fun hb => by simp at hb⟩

theorem byeConsistent_byeMatchList (mkId : ℕ → String) (k : ℕ) (byeId : Option String) :
    ∀ m ∈ byeMatchList mkId k byeId, byeConsistent m := by
  intro m hm
  rcases byeId with _ | b
  · simp [byeMatchList] at hm
  · by_cases hb : b ≠ ""
    · simp only [byeMatchList, if_pos hb, List.mem_singleton] at hm
      subst hm
      exact ⟨fun _ => rfl, fun _ => rfl⟩
    · simp [byeMatchList, hb] at hm

theorem byeConsistent_restMatches (mkId : ℕ → String) (base : ℕ)
    (ps : List (String × String)) : ∀ m ∈ restMatches mkId base ps, byeConsistent m := by
  intro m hm
  obtain ⟨ip, _, rfl⟩ := List.mem_map.mp hm
  by_cases hb : ip.2.2 = "BYE"
  · rw [if_pos hb]
    exact ⟨fun _ => rfl, fun _ => rfl⟩
  · rw [if_neg hb]
    exact ⟨fun hr => by simp at hr, fun hx => by simp at hx⟩

theorem pair_next_byeConsistent (shuffle : ℕ → List String → List String)
    (mkId : ℕ → String) (t : Tournament) :
    ∀ m ∈ (pair_next shuffle mkId t).2, byeConsistent m := by
  intro m hm
  rcases List.mem_append.mp hm with h | h
  · exact byeConsistent_matchesOfPairs _ _ _ m h
  · exact byeConsistent_byeMatchList _ _ _ m h

theorem pnwo_byeConsistent (shuffle : ℕ → List String → List String)
    (mkId : ℕ → String) (t : Tournament) (locked : List (String × String)) :
    ∀ m ∈ (pair_next_with_overrides shuffle mkId t locked).2.1, byeConsistent m := by
  intro m hm
  rcases List.mem_append.mp hm with h | h
  · exact byeConsistent_matchesOfPairs _ _ _ m h
  · exact byeConsistent_restMatches _ _ _ m h

theorem applyResult_preserves (ms : List Match) (ru : String × String) (m' : Match)
    (hm' : m' ∈ applyResult ms ru) :
    ∃ m ∈ ms, m'.id = m.id ∧ m'.b = m.b ∧ m'.a = m.a
      ∧ (m'.r = m.r ∨ (m.id = ru.1 ∧ (m'.r = "A" ∨ m'.r = "B" ∨ m'.r = "TIE"))) := by
  unfold applyResult at hm'
  by_cases hv : ru.2 = "A" ∨ ru.2 = "B" ∨ ru.2 = "TIE"
  · rw [if_pos hv] at hm'
    obtain ⟨m, hmem, rfl⟩ := List.mem_map.mp hm'
    by_cases hid : m.id = ru.1
    · refine ⟨m, hmem, ?_⟩
      rw [if_pos hid]
      exact ⟨rfl, rfl, rfl, Or.inr ⟨hid, by rcases hv with h | h | h <;> simp [h]⟩⟩
    · refine ⟨m, hmem, ?_⟩
      rw [if_neg hid]
      exact ⟨rfl, rfl, rfl, Or.inl rfl⟩
  · rw [if_neg hv] at hm'
    exact ⟨m', hm', rfl, rfl, rfl, Or.inl rfl⟩

theorem foldl_applyResult_byeConsistent (results : List (String × String)) :
    ∀ (ms : List Match),
      (∀ m ∈ ms, byeConsistent m) →
      (∀ ru ∈ results, ∀ m ∈ ms, m.id = ru.1 → m.b ≠ none) →
      ∀ m ∈ results.foldl applyResult ms, byeConsistent m := by
  induction results with
  | nil => intro ms hok _ m hm; exact hok m hm
  | cons ru rs ih =>
    intro ms hok htarget m hm
    rw [List.foldl_cons] at hm
    refine ih (applyResult ms ru) ?_ ?_ m hm
    · intro m' hm'
      obtain ⟨m0, hmem, hid, hb, _, hr⟩ := applyResult_preserves ms ru m' hm'
      rcases hr with hr | ⟨hid0, hout⟩
      · unfold byeConsistent
        rw [hr, hb]
        exact hok m0 hmem
      · have hbne : m0.b ≠ none := htarget ru (List.mem_cons_self ru rs) m0 hmem hid0
        constructor
        · intro hbad
          rcases hout with h | h | h <;> rw [h] at hbad <;> exact absurd hbad (by decide)
        · intro hbad
          rw [hb] at hbad
          exact absurd hbad hbne
    · intro ru' hru' m' hm' hid'
      obtain ⟨m0, hmem, hid, hb, _, _⟩ := applyResult_preserves ms ru m' hm'
      rw [hb]
      exact htarget ru' (List.mem_cons_of_mem ru hru') m0 hmem (by rw [← hid, hid'])

/-- C4 (amended): rounds produced by `pair_next` and by the override path
satisfy `outcome = BYE ⇔ competitor_b absent`, and `finalize-round`
preserves the equivalence provided no submitted `match_id` targets a bye
match; an update addressed to a bye match breaks it (see the
counterexample). -/
theorem claim_C4_amended :
    (∀ (shuffle : ℕ → List String → List String) (mkId : ℕ → String) (t : Tournament),
        ∀ m ∈ (pair_next shuffle mkId t).2, byeConsistent m)
    ∧ (∀ (shuffle : ℕ → List String → List String) (mkId : ℕ → String) (t : Tournament)
        (locked : List (String × String)),
        ∀ m ∈ (pair_next_with_overrides shuffle mkId t locked).2.1, byeConsistent m)
    ∧ (∀ (t : Tournament) (results : List (String × String)) (t' : Tournament),
        api_finalize_round t results = some t' →
        (∀ ru ∈ results, ∀ m ∈ (t.rounds.getLastD { n := 0, «matches» := [] }).matches,
            m.id = ru.1 → m.b ≠ none) →
        (∀ r ∈ t.rounds, ∀ m ∈ r.matches, byeConsistent m) →
        ∀ r' ∈ t'.rounds, ∀ m ∈ r'.matches, byeConsistent m) := by
  refine ⟨pair_next_byeConsistent, pnwo_byeConsistent, ?_⟩
  intro t results t' hfin htarget hok r' hr' m hm
  unfold api_finalize_round at hfin
  by_cases h1 : results.isEmpty
  · rw [if_pos h1] at hfin; exact absurd hfin (by simp)
  · rw [if_neg h1] at hfin
    by_cases h2 : t.rounds.isEmpty
    · rw [if_pos h2] at hfin; exact absurd hfin (by simp)
    · rw [if_neg h2] at hfin
      have ht' : t' = { t with rounds := t.rounds.dropLast ++
          [{ t.rounds.getLastD { n := 0, «matches» := [] } with
              «matches» := results.foldl applyResult
                (t.rounds.getLastD { n := 0, «matches» := [] }).matches }] } := by
        injection hfin with h
        exact h.symm
      subst ht'
      simp only [] at hr'
      rcases List.mem_append.mp hr' with hprev | hnew
      · exact hok r' (List.dropLast_subset _ hprev) m hm
      · rcases List.mem_singleton.mp hnew with rfl
        simp only [] at hm
        refine foldl_applyResult_byeConsistent results _ ?_ htarget m hm
        intro m0 hm0
        have hne : t.rounds ≠ [] := by
          intro h0
          rw [h0] at h2
          exact h2 rfl
        have hlastmem : t.rounds.getLastD { n := 0, «matches» := [] } ∈ t.rounds := by
          rw [List.getLastD_eq_getLast?]
          rcases hx : t.rounds.getLast? with _ | y
          · rw [List.getLast?_eq_none_iff] at hx
            exact absurd hx hne
          · simp only [Option.getD_some]
            obtain ⟨h, hy⟩ := List.mem_getLast?_eq_getLast (show _ from hx)
            rw [hy]
            exact List.getLast_mem h
        exact hok _ hlastmem m0 hm0

/-- Witness for C4 (amended) at concrete inputs: the freshly produced pair
and bye matches of a concrete `pair_next` round, and a finalize batch that
targets only the real match of `docByeActive`. -/
theorem claim_C4_amended_witness :
    (∀ m ∈ (pair_next idShuffle mkM docFour).2, byeConsistent m)
    ∧ (∀ r' ∈ docByeFin.rounds, ∀ m ∈ r'.matches, byeConsistent m) :=
  ⟨claim_C4_amended.1 idShuffle mkM docFour,
   claim_C4_amended.2.2 docByeActive [("m1", "A")] docByeFin (by decide)
     (by decide)
     (by decide)⟩

/-- C4 (counterexample): feeding the bye match's id to `finalize-round`
with outcome `"A"` yields a document whose bye match has `outcome = "A"`
but no `competitor_b` — the claimed equivalence is not preserved. -/
theorem claim_C4_counterexample :
    api_finalize_round docByeActive [("m2", "A")] = some docByeBroken
    ∧ byeBrokenMatch ∈ (docByeBroken.rounds.getLastD { n := 0, «matches» := [] }).matches
    ∧ ¬ byeConsistent byeBrokenMatch := by
  refine ⟨by decide, by decide, ?_⟩
  intro hiff
  have := hiff.mpr rfl
  exact absurd this (by decide)

/-! ## Lemmas: dedupe, removeOne, findSome? -/

theorem exists_of_findSome {α β : Type} (f : α → Option β) (l : List α) (b : β)
    (h : l.findSome? f = some b) : ∃ a ∈ l, f a = some b := by
  obtain ⟨l₁, a, l₂, rfl, hfa, _⟩ := List.findSome?_eq_some_iff.mp h
  exact ⟨a, by simp, hfa⟩

theorem mem_pyDedupeGo {α : Type} [DecidableEq α] (x : α) :
    ∀ (l seen : List α), x ∈ pyDedupeGo seen l ↔ x ∈ l ∧ x ∉ seen := by
  intro l
  induction l with
  | nil => intro seen; simp [pyDedupeGo]
  | cons y ys ih =>
    intro seen
    unfold pyDedupeGo
    by_cases hy : y ∈ seen
    · rw [if_pos hy, ih seen]
      constructor
      · rintro ⟨h1, h2⟩
        exact ⟨List.mem_cons_of_mem y h1, h2⟩
      · rintro ⟨h1, h2⟩
        rcases List.mem_cons.mp h1 with rfl | h1
        · exact absurd hy h2
        · exact ⟨h1, h2⟩
    · rw [if_neg hy]
      rw [List.mem_cons, ih (y :: seen)]
      constructor
      · rintro (rfl | ⟨h1, h2⟩)
        · exact ⟨List.mem_cons_self _ _, hy⟩
        · exact ⟨List.mem_cons_of_mem y h1, fun hx => h2 (List.mem_cons_of_mem y hx)⟩
      · rintro ⟨h1, h2⟩
        rcases List.mem_cons.mp h1 with rfl | h1
        · exact Or.inl rfl
        · by_cases hxy : x = y
          · exact Or.inl hxy
          · exact Or.inr ⟨h1, fun hx => by
              rcases List.mem_cons.mp hx with h | h
              · exact hxy h
              · exact h2 h⟩

theorem nodup_pyDedupeGo {α : Type} [DecidableEq α] :
    ∀ (l seen : List α), (pyDedupeGo seen l).Nodup := by
  intro l
  induction l with
  | nil => intro seen; simp [pyDedupeGo]
  | cons y ys ih =>
    intro seen
    unfold pyDedupeGo
    by_cases hy : y ∈ seen
    · rw [if_pos hy]; exact ih seen
    · rw [if_neg hy]
      refine List.Nodup.cons ?_ (ih (y :: seen))
      intro hmem
      exact ((mem_pyDedupeGo y ys (y :: seen)).mp hmem).2 (List.mem_cons_self _ _)

theorem mem_pyDedupe {α : Type} [DecidableEq α] (x : α) (l : List α) :
    x ∈ pyDedupe l ↔ x ∈ l := by
  unfold pyDedupe
  rw [mem_pyDedupeGo]
  simp

theorem nodup_pyDedupe {α : Type} [DecidableEq α] (l : List α) : (pyDedupe l).Nodup :=
  nodup_pyDedupeGo l []

theorem pyDedupeGo_eq_self {α : Type} [DecidableEq α] :
    ∀ (l seen : List α), l.Nodup → (∀ x ∈ l, x ∉ seen) → pyDedupeGo seen l = l := by
  intro l
  induction l with
  | nil => intro seen _ _; rfl
  | cons y ys ih =>
    intro seen hnd hfresh
    unfold pyDedupeGo
    rw [if_neg (hfresh y (List.mem_cons_self _ _))]
    congr 1
    refine ih (y :: seen) (List.Nodup.of_cons hnd) ?_
    intro x hx hmem
    rcases List.mem_cons.mp hmem with rfl | h
    · exact (List.nodup_cons.mp hnd).1 hx
    · exact hfresh x (List.mem_cons_of_mem y hx) h

theorem pyDedupe_eq_self {α : Type} [DecidableEq α] (l : List α) (h : l.Nodup) :
    pyDedupe l = l :=
  pyDedupeGo_eq_self l [] h (by simp)

theorem pyDedupe_idem {α : Type} [DecidableEq α] (l : List α) :
    pyDedupe (pyDedupe l) = pyDedupe l :=
  pyDedupe_eq_self _ (nodup_pyDedupe l)

theorem pyDedupeGo_congr {α : Type} [DecidableEq α] :
    ∀ (l seen seen' : List α), (∀ x, x ∈ seen ↔ x ∈ seen') →
      pyDedupeGo seen l = pyDedupeGo seen' l := by
  intro l
  induction l with
  | nil => intro seen seen' _; rfl
  | cons y ys ih =>
    intro seen seen' hiff
    unfold pyDedupeGo
    by_cases hy : y ∈ seen
    · rw [if_pos hy, if_pos ((hiff y).mp hy)]
      exact ih seen seen' hiff
    · rw [if_neg hy, if_neg (fun h => hy ((hiff y).mpr h))]
      congr 1
      refine ih (y :: seen) (y :: seen') ?_
      intro x
      rw [List.mem_cons, List.mem_cons, hiff x]

theorem pyDedupeGo_eq_filter {α : Type} [DecidableEq α] :
    ∀ (l seen : List α), l.Nodup → pyDedupeGo seen l = l.filter (fun x => x ∉ seen) := by
  intro l
  induction l with
  | nil => intro seen _; rfl
  | cons y ys ih =>
    intro seen hnd
    unfold pyDedupeGo
    by_cases hy : y ∈ seen
    · rw [if_pos hy, List.filter_cons_of_neg (by simpa using hy)]
      exact ih seen (List.Nodup.of_cons hnd)
    · rw [if_neg hy, List.filter_cons_of_pos (by simpa using hy)]
      congr 1
      rw [ih (y :: seen) (List.Nodup.of_cons hnd)]
      refine List.filter_congr ?_
      intro x hx
      have hxy : x ≠ y := by
        intro h
        subst h
        exact (List.nodup_cons.mp hnd).1 hx
      simp [List.mem_cons, hxy]

theorem pyDedupeGo_append {α : Type} [DecidableEq α] :
    ∀ (l₁ l₂ seen : List α),
      pyDedupeGo seen (l₁ ++ l₂) = pyDedupeGo seen l₁ ++ pyDedupeGo (l₁ ++ seen) l₂ := by
  intro l₁
  induction l₁ with
  | nil =>
    intro l₂ seen
    rfl
  | cons y ys ih =>
    intro l₂ seen
    by_cases hy : y ∈ seen
    · simp only [List.cons_append, pyDedupeGo, if_pos hy]
      change pyDedupeGo seen (ys ++ l₂) = pyDedupeGo seen ys ++ pyDedupeGo (y :: (ys ++ seen)) l₂
      rw [ih l₂ seen]
      congr 1
      refine pyDedupeGo_congr l₂ _ _ ?_
      intro x
      simp only [List.mem_append, List.mem_cons]
      constructor
      · intro h
        exact Or.inr h
      · rintro (rfl | h)
        · exact Or.inr hy
        · exact h
    · simp only [List.cons_append, pyDedupeGo, if_neg hy]
      change y :: pyDedupeGo (y :: seen) (ys ++ l₂)
          = y :: (pyDedupeGo (y :: seen) ys ++ pyDedupeGo (y :: (ys ++ seen)) l₂)
      rw [ih l₂ (y :: seen)]
      have hc := pyDedupeGo_congr l₂ (ys ++ y :: seen) (y :: (ys ++ seen)) (by
        intro x
        simp only [List.mem_append, List.mem_cons]
        tauto)
      rw [hc]

theorem pyDedupe_append {α : Type} [DecidableEq α] (l₁ l₂ : List α)
    (h₁ : l₁.Nodup) (h₂ : l₂.Nodup) :
    pyDedupe (l₁ ++ l₂) = l₁ ++ l₂.filter (fun x => x ∉ l₁) := by
  unfold pyDedupe
  rw [pyDedupeGo_append l₁ l₂ [], pyDedupeGo_eq_self l₁ [] h₁ (by simp)]
  congr 1
  rw [pyDedupeGo_eq_filter l₂ (l₁ ++ []) h₂]
  refine List.filter_congr ?_
  intro x _
  simp

theorem removeOne_spec {α : Type} :
    ∀ (l : List α) (p : α × List α), p ∈ removeOne l →
      (p.1 :: p.2).Perm l ∧ p.2.length + 1 = l.length ∧ p.2.Sublist l := by
  intro l
  induction l with
  | nil => intro p hp; exact absurd hp (List.not_mem_nil p)
  | cons x xs ih =>
    intro p hp
    unfold removeOne at hp
    rcases List.mem_cons.mp hp with rfl | hp
    · exact ⟨List.Perm.refl _, rfl, List.sublist_cons_self x xs⟩
    · obtain ⟨q, hq, rfl⟩ := List.mem_map.mp hp
      obtain ⟨hperm, hlen, hsub⟩ := ih q hq
      refine ⟨(List.Perm.swap x q.1 q.2).trans (hperm.cons x), ?_, hsub.cons₂ x⟩
      show (x :: q.2).length + 1 = (x :: xs).length
      simp only [List.length_cons]
      omega

/-! ## Lemmas: the local reorderings permute the working set -/

theorem swapLast2_perm {α : Type} (l : List α) : (swapLast2 l).Perm l := by
  unfold swapLast2
  rcases hr : l.reverse with _ | ⟨x, rest0⟩
  · exact List.Perm.refl l
  · rcases rest0 with _ | ⟨y, rest⟩
    · exact List.Perm.refl l
    · have : l = (x :: y :: rest).reverse := by
        rw [← hr, List.reverse_reverse]
      rw [this]
      refine (List.reverse_perm _).trans (List.Perm.trans ?_ (List.reverse_perm _).symm)
      exact List.Perm.swap x y rest

theorem swap12_perm {α : Type} (l : List α) : (swap12 l).Perm l := by
  unfold swap12
  rcases l with _ | ⟨a, _ | ⟨b, _ | ⟨c, rest⟩⟩⟩
  · exact List.Perm.refl _
  · exact List.Perm.refl _
  · exact List.Perm.refl _
  · exact (List.Perm.swap b c rest).cons a

theorem eo_cons {α : Type} (b : α) (rest : List α) :
    everyOther (b :: rest) = b :: oddsEO rest := by
  cases rest <;> rfl

theorem eo_perm {α : Type} : ∀ (n : ℕ) (l : List α), l.length ≤ n →
    (everyOther l ++ oddsEO l).Perm l := by
  intro n
  induction n with
  | zero =>
    intro l h
    have hl : l = [] := List.length_eq_zero.mp (by omega)
    subst hl
    simp [everyOther, oddsEO]
  | succ k ih =>
    intro l h
    rcases l with _ | ⟨a, l2⟩
    · simp [everyOther, oddsEO]
    · rcases l2 with _ | ⟨b, rest⟩
      · simp [everyOther, oddsEO]
      · have hodds : oddsEO (a :: b :: rest) = b :: oddsEO rest := eo_cons b rest
        have heo : everyOther (a :: b :: rest) = a :: everyOther rest := rfl
        rw [heo, hodds, List.cons_append]
        refine List.Perm.cons a ?_
        refine List.Perm.trans List.perm_middle ?_
        refine List.Perm.cons b ?_
        refine ih rest ?_
        simp only [List.length_cons] at h
        omega

theorem interleave_perm {α : Type} (l : List α) : (interleave l).Perm l :=
  eo_perm l.length l (le_refl _)

theorem swap25_perm {α : Type} (l : List α) : (swap25 l).Perm l := by
  unfold swap25
  rcases l with _ | ⟨a, _ | ⟨b, _ | ⟨c, _ | ⟨d, _ | ⟨e, _ | ⟨f, rest⟩⟩⟩⟩⟩⟩
  · exact List.Perm.refl _
  · exact List.Perm.refl _
  · exact List.Perm.refl _
  · exact List.Perm.refl _
  · exact List.Perm.refl _
  · exact List.Perm.refl _
  · refine ((List.Perm.cons a) ((List.Perm.cons b) ?_))
    refine List.Perm.trans ?_ (List.Perm.trans (List.Perm.swap c f (d :: e :: rest)) ?_)
    · exact List.Perm.cons f
        (List.perm_middle : ([d, e] ++ c :: rest).Perm (c :: ([d, e] ++ rest)))
    · exact List.Perm.cons c
        ((List.perm_middle : ([d, e] ++ f :: rest).Perm (f :: ([d, e] ++ rest))).symm)

/-! ## Lemmas: the backtracking search and the greedy fallback -/

theorem flatPairs_cons (p : String × String) (ps : List (String × String)) :
    flatPairs (p :: ps) = p.1 :: p.2 :: flatPairs ps := rfl

theorem pairBTAux_sound (prior : List (String × String)) :
    ∀ (fuel : ℕ) (l : List String) (ps : List (String × String)),
      pairBTAux prior fuel l = some ps →
      (flatPairs ps).Perm l ∧ ∀ p ∈ ps, p.1 ≠ p.2 := by
  intro fuel
  induction fuel with
  | zero =>
    intro l ps h
    cases l with
    | nil =>
      injection h with h
      subst h
      exact ⟨List.Perm.refl _, fun p hp => absurd hp (List.not_mem_nil p)⟩
    | cons a rest => exact absurd h (by simp [pairBTAux])
  | succ fuel ih =>
    intro l ps h
    cases l with
    | nil =>
      injection h with h
      subst h
      exact ⟨List.Perm.refl _, fun p hp => absurd hp (List.not_mem_nil p)⟩
    | cons a rest =>
      obtain ⟨p, hpmem, hfp⟩ := exists_of_findSome _ _ _ h
      by_cases h1 : a = p.1
      · rw [if_pos h1] at hfp
        exact absurd hfp (by simp)
      · rw [if_neg h1] at hfp
        by_cases h2 : isPriorB prior a p.1 = true
        · rw [if_pos h2] at hfp
          exact absurd hfp (by simp)
        · rw [if_neg h2] at hfp
          rcases hrec : pairBTAux prior fuel p.2 with _ | ps'
          · rw [hrec] at hfp
            exact absurd hfp (by simp)
          · rw [hrec] at hfp
            injection hfp with hfp
            subst hfp
            obtain ⟨hperm, hns⟩ := ih p.2 ps' hrec
            obtain ⟨hp1, _, _⟩ := removeOne_spec rest p hpmem
            constructor
            · rw [flatPairs_cons]
              exact List.Perm.cons a ((hperm.cons p.1).trans hp1)
            · intro q hq
              rcases List.mem_cons.mp hq with rfl | hq
              · exact h1
              · exact hns q hq

theorem isPriorB_nil (a b : String) : isPriorB [] a b = false := by
  simp [isPriorB]

theorem pairBTAux_nil_prior :
    ∀ (fuel : ℕ) (l : List String), l.length ≤ fuel → l.Nodup → l.length % 2 = 0 →
      pairBTAux [] fuel l = some (adjacentPairs l) := by
  intro fuel
  induction fuel with
  | zero =>
    intro l hl _ _
    have : l = [] := List.length_eq_zero.mp (by omega)
    subst this
    rfl
  | succ fuel ih =>
    intro l hl hnd hev
    rcases l with _ | ⟨a, l2⟩
    · rfl
    · rcases l2 with _ | ⟨b, rest⟩
      · simp at hev
      · have hab : ¬ (a = b) := by
          intro h
          subst h
          exact (List.nodup_cons.mp hnd).1 (List.mem_cons_self a rest)
        have hrest_nodup : rest.Nodup :=
          List.Nodup.of_cons (List.Nodup.of_cons hnd)
        have hrec : pairBTAux [] fuel rest = some (adjacentPairs rest) := by
          refine ih rest ?_ hrest_nodup ?_
          · simp only [List.length_cons] at hl
            omega
          · simp only [List.length_cons] at hev
            omega
        show (removeOne (b :: rest)).findSome? _ = _
        rw [show removeOne (b :: rest)
            = (b, rest) :: (removeOne rest).map (fun p => (p.1, b :: p.2)) from rfl]
        rw [List.findSome?_cons]
        simp only [if_neg hab, isPriorB_nil, Bool.false_eq_true, if_false, hrec]
        rfl

theorem pickPartner_spec (prior : List (String × String)) (a : String) (rest : List String)
    (b : String) (rest' : List String) (h : pickPartner prior a rest = some (b, rest')) :
    (b, rest') ∈ removeOne rest ∧ b ≠ a := by
  unfold pickPartner at h
  rcases h1 : (removeOne rest).findSome?
      (fun p => if p.1 ≠ a ∧ isPriorB prior a p.1 = false then some p else none) with _ | q
  · simp only [h1] at h
    obtain ⟨p, hp, hfp⟩ := exists_of_findSome _ _ _ h
    by_cases hcond : p.1 ≠ a
    · rw [if_pos hcond] at hfp
      injection hfp with hfp
      subst hfp
      exact ⟨hp, hcond⟩
    · rw [if_neg hcond] at hfp
      exact absurd hfp (by simp)
  · simp only [h1] at h
    injection h with h
    subst h
    obtain ⟨p, hp, hfp⟩ := exists_of_findSome _ _ _ h1
    by_cases hcond : p.1 ≠ a ∧ isPriorB prior a p.1 = false
    · rw [if_pos hcond] at hfp
      injection hfp with hfp
      subst hfp
      exact ⟨hp, hcond.1⟩
    · rw [if_neg hcond] at hfp
      exact absurd hfp (by simp)

theorem pickPartner_total (prior : List (String × String)) (a : String) (rest : List String)
    (hne : rest ≠ []) (hnotin : a ∉ rest) :
    ∃ b rest', pickPartner prior a rest = some (b, rest') := by
  unfold pickPartner
  rcases h1 : (removeOne rest).findSome?
      (fun p => if p.1 ≠ a ∧ isPriorB prior a p.1 = false then some p else none) with _ | q
  · rcases rest with _ | ⟨c, rest0⟩
    · exact absurd rfl hne
    · refine ⟨c, rest0, ?_⟩
      have hca : (c ≠ a) := fun h => hnotin (h ▸ List.mem_cons_self c rest0)
      simp only [h1]
      rw [show removeOne (c :: rest0)
          = (c, rest0) :: (removeOne rest0).map (fun p => (p.1, c :: p.2)) from rfl]
      rw [List.findSome?_cons]
      simp only [if_pos hca]
  · refine ⟨q.1, q.2, ?_⟩
    simp only [h1]

theorem greedyAux_cons (prior : List (String × String)) (fuel : ℕ) (a b : String)
    (rest rest' : List String) (ps' : List (String × String))
    (h1 : pickPartner prior a rest = some (b, rest'))
    (h2 : greedyAux prior fuel rest' = some ps') :
    greedyAux prior (fuel + 1) (a :: rest) = some ((a, b) :: ps') := by
  unfold greedyAux
  simp only [h1, h2]

theorem greedyAux_total (prior : List (String × String)) :
    ∀ (fuel : ℕ) (l : List String), l.length ≤ fuel → l.Nodup → l.length % 2 = 0 →
      ∃ ps, greedyAux prior fuel l = some ps ∧ (flatPairs ps).Perm l
        ∧ ∀ p ∈ ps, p.1 ≠ p.2 := by
  intro fuel
  induction fuel with
  | zero =>
    intro l hl _ _
    have : l = [] := List.length_eq_zero.mp (by omega)
    subst this
    exact ⟨[], rfl, List.Perm.refl _, fun p hp => absurd hp (List.not_mem_nil p)⟩
  | succ fuel ih =>
    intro l hl hnd hev
    rcases l with _ | ⟨a, rest⟩
    · exact ⟨[], rfl, List.Perm.refl _, fun p hp => absurd hp (List.not_mem_nil p)⟩
    · have hne : rest ≠ [] := by
        intro h
        subst h
        simp at hev
      have hanotin : a ∉ rest := (List.nodup_cons.mp hnd).1
      obtain ⟨b, rest', hpk⟩ := pickPartner_total prior a rest hne hanotin
      obtain ⟨hmem, hba⟩ := pickPartner_spec prior a rest b rest' hpk
      obtain ⟨hperm1, hlen, hsub⟩ := removeOne_spec rest (b, rest') hmem
      have hrest'_nodup : rest'.Nodup := hsub.nodup (List.Nodup.of_cons hnd)
      obtain ⟨ps', hg, hperm', hns⟩ := ih rest' (by
          simp only [List.length_cons] at hl
          simp only [List.length_cons] at hlen
          omega)
        hrest'_nodup (by
          simp only [List.length_cons] at hev
          simp only [List.length_cons] at hlen
          omega)
      refine ⟨(a, b) :: ps', greedyAux_cons prior fuel a b rest rest' ps' hpk hg, ?_, ?_⟩
      · rw [flatPairs_cons]
        exact List.Perm.cons a ((hperm'.cons b).trans hperm1)
      · intro q hq
        rcases List.mem_cons.mp hq with rfl | hq
        · exact fun h => hba h.symm
        · exact hns q hq

/-! ## Lemmas: orderings and `pair_bucket` -/

theorem pyDedupe_append_fresh {α : Type} [DecidableEq α] (l₁ l₂ : List α)
    (h₂ : l₂.Nodup) (hfresh : ∀ x ∈ l₂, x ∉ l₁) :
    pyDedupe (l₁ ++ l₂) = pyDedupe l₁ ++ l₂ := by
  unfold pyDedupe
  rw [pyDedupeGo_append]
  congr 1
  rw [pyDedupeGo_eq_filter l₂ _ h₂]
  refine List.filter_eq_self.mpr ?_
  intro x hx
  simpa using fun hmem => hfresh x hx (by simpa using hmem)

theorem mem_tail_subset {α : Type} {l : List α} {xs : List (List α)}
    (h : l ∈ xs.tail) : l ∈ xs := by
  cases xs with
  | nil => exact absurd h (List.not_mem_nil l)
  | cons y ys => exact List.mem_cons_of_mem y h

theorem tryOrderings_perm (shuffle : ℕ → List String → List String)
    (hs : ∀ s l, (shuffle s l).Perm l) (base : List String) :
    ∀ v ∈ tryOrderings shuffle base, v.Perm (pyDedupe base) := by
  intro v hv
  simp only [tryOrderings] at hv
  have hv' := (mem_pyDedupe v _).mp hv
  rcases List.mem_append.mp hv' with h | h
  · rcases List.mem_append.mp h with h | h
    · rcases List.mem_append.mp h with h | h
      · rcases List.mem_singleton.mp h with rfl
        exact List.Perm.refl _
      · by_cases h4 : 4 ≤ (pyDedupe base).length
        · rw [if_pos h4] at h
          rcases List.mem_cons.mp h with rfl | h
          · exact swapLast2_perm _
          · rcases List.mem_cons.mp h with rfl | h
            · exact swap12_perm _
            · rcases List.mem_singleton.mp h with rfl
              exact interleave_perm _
        · rw [if_neg h4] at h
          exact absurd h (List.not_mem_nil v)
    · by_cases h6 : 6 ≤ (pyDedupe base).length
      · rw [if_pos h6] at h
        rcases List.mem_singleton.mp h with rfl
        exact swap25_perm _
      · rw [if_neg h6] at h
        exact absurd h (List.not_mem_nil v)
  · rcases List.mem_singleton.mp h with rfl
    exact hs _ _

theorem tryOrderings_head (shuffle : ℕ → List String → List String) (base : List String) :
    ∃ rest, tryOrderings shuffle base = pyDedupe base :: rest :=
  ⟨_, rfl⟩

theorem pairBucket_sound (shuffle : ℕ → List String → List String)
    (hs : ∀ s l, (shuffle s l).Perm l) (prior : List (String × String))
    (work : List String) (ps : List (String × String))
    (h : pairBucket shuffle prior work = some ps) :
    (flatPairs ps).Perm (pyDedupe work) ∧ ∀ p ∈ ps, p.1 ≠ p.2 := by
  unfold pairBucket at h
  rcases hfs : (tryOrderings shuffle (pyDedupe work)).findSome?
      (fun cand => _pair_within_bracket prior cand) with _ | res
  · simp only [hfs] at h
    exact absurd h (by simp)
  · simp only [hfs] at h
    injection h with h
    subst h
    obtain ⟨cand, hcand, hres⟩ := exists_of_findSome _ _ _ hfs
    obtain ⟨hperm, hns⟩ := pairBTAux_sound prior cand.length cand res hres
    have hcp : cand.Perm (pyDedupe (pyDedupe work)) :=
      tryOrderings_perm shuffle hs (pyDedupe work) cand hcand
    rw [pyDedupe_idem] at hcp
    have hfilter : res.filter (fun p => p.1 ≠ p.2) = res :=
      List.filter_eq_self.mpr (fun p hp => by simpa using hns p hp)
    rw [hfilter]
    exact ⟨hperm.trans hcp, hns⟩

theorem pairBucket_nil_prior (shuffle : ℕ → List String → List String)
    (work : List String) (hnd : work.Nodup) (hev : work.length % 2 = 0) :
    pairBucket shuffle [] work = some (adjacentPairs work) := by
  rw [show pairBucket shuffle [] work
      = (match (tryOrderings shuffle (pyDedupe work)).findSome?
            (fun cand => _pair_within_bracket [] cand) with
        | some res => some (res.filter (fun p => p.1 ≠ p.2))
        | none => none) from rfl]
  have h1 : _pair_within_bracket ([] : List (String × String)) work
      = some (adjacentPairs work) :=
    pairBTAux_nil_prior work.length work (le_refl _) hnd hev
  obtain ⟨restv, hrestv⟩ := tryOrderings_head shuffle (pyDedupe work)
  simp only [pyDedupe_eq_self work hnd] at hrestv
  obtain ⟨_, hns⟩ := pairBTAux_sound [] work.length work _ h1
  have hfilter : (adjacentPairs work).filter (fun p => p.1 ≠ p.2) = adjacentPairs work :=
    List.filter_eq_self.mpr (fun p hp => by simpa using hns p hp)
  have hfs : (tryOrderings shuffle work).findSome?
      (fun cand => _pair_within_bracket ([] : List (String × String)) cand)
      = some (adjacentPairs work) := by
    rw [hrestv]
    simp only [List.findSome?_cons, h1]
  rw [pyDedupe_eq_self work hnd, hfs]
  show some ((adjacentPairs work).filter (fun p => p.1 ≠ p.2)) = some (adjacentPairs work)
  rw [hfilter]

/-! ## Lemmas: the bracket loop -/

theorem flatPairs_append (l₁ l₂ : List (String × String)) :
    flatPairs (l₁ ++ l₂) = flatPairs l₁ ++ flatPairs l₂ := by
  unfold flatPairs
  rw [List.flatMap_append]

theorem greedyPairs_eq (prior : List (String × String)) (work : List String)
    (ps : List (String × String)) (h : greedyAux prior work.length work = some ps) :
    greedyPairs prior work = some ps := h

theorem nodup_append_of_disjoint {l₁ l₂ : List String} (h₁ : l₁.Nodup) (h₂ : l₂.Nodup)
    (hd : ∀ x ∈ l₁, x ∉ l₂) : (l₁ ++ l₂).Nodup :=
  List.nodup_append.mpr ⟨h₁, h₂, fun a ha hb => hd a ha hb⟩

theorem pyDedupeGo_cons {α : Type} [DecidableEq α] (seen : List α) (x : α) (xs : List α) :
    pyDedupeGo seen (x :: xs)
      = if x ∈ seen then pyDedupeGo seen xs else x :: pyDedupeGo (x :: seen) xs := rfl

theorem bracketStep_spec (shuffle : ℕ → List String → List String)
    (hs : ∀ s l, (shuffle s l).Perm l) (prior : List (String × String))
    (recur : List String → List (List String) → List (String × String) × List String)
    (rest : List (List String))
    (hrec : ∀ (carry : List String) (bs : List (List String)),
      bs.length ≤ rest.length → carry.Nodup → bs.flatten.Nodup →
      (∀ x ∈ carry, ∀ l ∈ bs.tail, x ∉ l) →
      ∀ pr cf, recur carry bs = (pr, cf) →
        ((flatPairs pr ++ cf).Perm (pyDedupe (carry ++ bs.flatten))
          ∧ (∀ p ∈ pr, p.1 ≠ p.2)
          ∧ (cf.length ≤ 1 ∨ (bs = [] ∧ cf = carry))))
    (work carry1 : List String)
    (hwnd : work.Nodup) (hwev : work.length % 2 = 0)
    (hc1nd : carry1.Nodup) (hc1len : carry1.length ≤ 1)
    (hfrnd : rest.flatten.Nodup)
    (hwfr : ∀ x ∈ work, x ∉ rest.flatten)
    (hc1fr : ∀ x ∈ carry1, x ∉ rest.flatten) :
    ∀ pr cf, bracketStep shuffle prior recur work carry1 rest = (pr, cf) →
      ((flatPairs pr ++ cf).Perm (work ++ (carry1 ++ rest.flatten))
        ∧ (∀ p ∈ pr, p.1 ≠ p.2)
        ∧ cf.length ≤ 1) := by
  intro pr cf heq
  simp only [bracketStep] at heq
  rcases hpb : pairBucket shuffle prior work with _ | res
  · -- the no-repeat solver failed on this working set
    rw [hpb] at heq
    simp only [] at heq
    rcases rest with _ | ⟨next, rest2⟩
    · -- last bracket: greedy always succeeds on an even duplicate-free set
      simp only [] at heq
      obtain ⟨chosen, hg, hgperm, hgns⟩ :=
        greedyAux_total prior work.length work (le_refl _) hwnd hwev
      rw [greedyPairs_eq prior work chosen hg] at heq
      simp only [] at heq
      rcases hr : recur carry1 [] with ⟨r1, r2⟩
      rw [hr] at heq
      injection heq with heq1 heq2
      subst heq1
      subst heq2
      obtain ⟨hperm, hns, hcf⟩ := hrec carry1 [] (by simp) hc1nd (by simp)
        (fun x hx l hl => absurd hl (List.not_mem_nil l)) r1 r2 hr
      rw [show (([] : List (List String)).flatten) = [] from rfl, List.append_nil,
        pyDedupe_eq_self carry1 hc1nd] at hperm
      refine ⟨?_, ?_, ?_⟩
      · rw [flatPairs_append, List.append_assoc]
        rw [show (([] : List (List String)).flatten) = [] from rfl, List.append_nil]
        exact hgperm.append hperm
      · intro p hp
        rcases List.mem_append.mp hp with h | h
        · exact hgns p h
        · exact hns p h
      · rcases hcf with h | ⟨_, h⟩
        · exact h
        · rw [h]; exact hc1len
    · simp only [] at heq
      by_cases hne : next.isEmpty
      · -- empty next bracket: no borrow, straight to greedy
        rw [if_pos hne] at heq
        obtain ⟨chosen, hg, hgperm, hgns⟩ :=
          greedyAux_total prior work.length work (le_refl _) hwnd hwev
        rw [greedyPairs_eq prior work chosen hg] at heq
        simp only [] at heq
        rcases hr : recur carry1 (next :: rest2) with ⟨r1, r2⟩
        rw [hr] at heq
        injection heq with heq1 heq2
        subst heq1
        subst heq2
        obtain ⟨hperm, hns, hcf⟩ := hrec carry1 (next :: rest2) (le_refl _) hc1nd hfrnd
          (fun x hx l hl hmem =>
            hc1fr x hx (List.mem_flatten.mpr ⟨l, mem_tail_subset hl, hmem⟩)) r1 r2 hr
        rw [pyDedupe_eq_self _ (nodup_append_of_disjoint hc1nd hfrnd hc1fr)] at hperm
        refine ⟨?_, ?_, ?_⟩
        · rw [flatPairs_append, List.append_assoc]
          exact hgperm.append hperm
        · intro p hp
          rcases List.mem_append.mp hp with h | h
          · exact hgns p h
          · exact hns p h
        · rcases hcf with h | ⟨h, _⟩
          · exact h
          · exact absurd h (by simp)
      · -- borrow branch: the popped candidate is the borrowed head itself,
        -- so the retried bucket equals `work` and the retry fails again
        rw [if_neg hne] at heq
        have hnx : next ≠ [] := fun h => hne (by rw [h]; rfl)
        obtain ⟨c, t, rfl⟩ : ∃ c t, next = c :: t := by
          rcases next with _ | ⟨c, t⟩
          · exact absurd rfl hnx
          · exact ⟨c, t, rfl⟩
        simp only [List.headD_cons, List.tail_cons] at heq
        have hfl : ((c :: t) :: rest2).flatten = (c :: t) ++ rest2.flatten := rfl
        have hcandmem : c ∈ c :: t := List.mem_cons_self _ _
        have hcandfr : c ∈ ((c :: t) :: rest2).flatten :=
          List.mem_flatten.mpr ⟨c :: t, List.mem_cons_self _ _, hcandmem⟩
        have hcandw : c ∉ work := fun h => hwfr _ h hcandfr
        have hcandc1 : c ∉ carry1 := fun h => hc1fr _ h hcandfr
        rw [if_neg hcandw] at heq
        have hlen2 : (work ++ [c]).length % 2 = 1 := by
          rw [List.length_append]
          simp only [List.length_singleton]
          omega
        simp only [if_pos hlen2] at heq
        rw [List.dropLast_concat] at heq
        have hgl : (work ++ [c]).getLastD "" = c := by
          rw [List.getLastD_eq_getLast?, List.getLast?_concat]
          rfl
        rw [hgl] at heq
        rw [hpb] at heq
        simp only [] at heq
        obtain ⟨chosen, hg, hgperm, hgns⟩ :=
          greedyAux_total prior work.length work (le_refl _) hwnd hwev
        rw [greedyPairs_eq prior work chosen hg] at heq
        simp only [] at heq
        rcases hr : recur (c :: carry1) ((c :: t) :: rest2) with ⟨r1, r2⟩
        rw [hr] at heq
        injection heq with heq1 heq2
        subst heq1
        subst heq2
        have hnextnd : (c :: t).Nodup := by
          rw [hfl] at hfrnd
          exact (List.nodup_append.mp hfrnd).1
        have hfr2nd : rest2.flatten.Nodup := by
          rw [hfl] at hfrnd
          exact (List.nodup_append.mp hfrnd).2.1
        have hdisj : ∀ x ∈ c :: t, x ∉ rest2.flatten := by
          rw [hfl] at hfrnd
          exact fun x hx hy => (List.nodup_append.mp hfrnd).2.2 hx hy
        have hcnt : c ∉ t := (List.nodup_cons.mp hnextnd).1
        have htnd : t.Nodup := (List.nodup_cons.mp hnextnd).2
        obtain ⟨hperm, hns, hcf⟩ := hrec (c :: carry1) ((c :: t) :: rest2)
          (le_refl _)
          (List.Nodup.cons hcandc1 hc1nd) hfrnd
          (fun x hx l hl hmem => by
            rcases List.mem_cons.mp hx with rfl | hx
            · exact hdisj _ hcandmem (List.mem_flatten.mpr ⟨l, hl, hmem⟩)
            · exact hc1fr x hx (List.mem_flatten.mpr
                ⟨l, List.mem_cons_of_mem _ hl, hmem⟩))
          r1 r2 hr
        have htailnd : (t ++ rest2.flatten).Nodup := by
          refine nodup_append_of_disjoint htnd hfr2nd ?_
          exact fun x hx => hdisj x (List.mem_cons_of_mem c hx)
        have htailfresh : ∀ x ∈ t ++ rest2.flatten, x ∉ carry1 ++ [c] := by
          intro x hx hmem
          have hxfr : x ∈ ((c :: t) :: rest2).flatten := by
            rw [hfl]
            rcases List.mem_append.mp hx with h | h
            · exact List.mem_append.mpr (Or.inl (List.mem_cons_of_mem c h))
            · exact List.mem_append.mpr (Or.inr h)
          have hxc : x ≠ c := by
            rintro rfl
            rcases List.mem_append.mp hx with h | h
            · exact hcnt h
            · exact hdisj _ hcandmem h
          rcases List.mem_append.mp hmem with h | h
          · exact hc1fr x h hxfr
          · exact hxc (List.mem_singleton.mp h)
        -- dedupe of the overlapping carry/next-head working list
        have hdd : pyDedupe ((c :: carry1) ++ ((c :: t) :: rest2).flatten)
            = c :: (carry1 ++ (t ++ rest2.flatten)) := by
          rw [hfl]
          show pyDedupeGo [] (c :: (carry1 ++ (c :: (t ++ rest2.flatten)))) = _
          rw [pyDedupeGo_cons, if_neg (List.not_mem_nil c)]
          congr 1
          rw [pyDedupeGo_append carry1 (c :: (t ++ rest2.flatten)) [c]]
          rw [pyDedupeGo_eq_self carry1 [c] hc1nd (fun x hx hmem =>
            hcandc1 ((List.mem_singleton.mp hmem) ▸ hx))]
          rw [pyDedupeGo_cons,
            if_pos (List.mem_append.mpr (Or.inr (List.mem_singleton.mpr rfl)))]
          rw [pyDedupeGo_eq_self (t ++ rest2.flatten) (carry1 ++ [c]) htailnd htailfresh]
        rw [hdd] at hperm
        refine ⟨?_, ?_, ?_⟩
        · rw [flatPairs_append, List.append_assoc]
          refine (hgperm.append hperm).trans ?_
          refine List.Perm.append_left work ?_
          rw [hfl]
          exact List.perm_middle.symm
        · intro p hp
          rcases List.mem_append.mp hp with h | h
          · exact hgns p h
          · exact hns p h
        · rcases hcf with h | ⟨h, _⟩
          · exact h
          · exact absurd h (by simp)
  · -- the no-repeat solver succeeded
    rw [hpb] at heq
    simp only [] at heq
    rcases hr : recur carry1 rest with ⟨r1, r2⟩
    rw [hr] at heq
    injection heq with heq1 heq2
    subst heq1
    subst heq2
    obtain ⟨hperm, hns, hcf⟩ := hrec carry1 rest (le_refl _) hc1nd hfrnd
      (fun x hx l hl hmem =>
        hc1fr x hx (List.mem_flatten.mpr ⟨l, mem_tail_subset hl, hmem⟩)) r1 r2 hr
    rw [pyDedupe_eq_self _ (nodup_append_of_disjoint hc1nd hfrnd hc1fr)] at hperm
    obtain ⟨hpermB, hnsB⟩ := pairBucket_sound shuffle hs prior work res hpb
    rw [pyDedupe_eq_self work hwnd] at hpermB
    refine ⟨?_, ?_, ?_⟩
    · rw [flatPairs_append, List.append_assoc]
      exact hpermB.append hperm
    · intro p hp
      rcases List.mem_append.mp hp with h | h
      · exact hnsB p h
      · exact hns p h
    · rcases hcf with h | ⟨hrest, hcfeq⟩
      · exact h
      · rw [hcfeq]
        exact hc1len

theorem getLastD_mem_of_ne_nil (l : List String) (h : l ≠ []) : l.getLastD "" ∈ l := by
  rw [List.getLastD_eq_getLast?, List.getLast?_eq_getLast l h]
  exact List.getLast_mem h

theorem bracketLoopAux_nil (shuffle : ℕ → List String → List String)
    (prior : List (String × String)) (fuel : ℕ) (carry : List String) :
    bracketLoopAux shuffle prior fuel carry [] = ([], carry) := by
  cases fuel <;> rfl

theorem bracketLoop_spec (shuffle : ℕ → List String → List String)
    (hs : ∀ s l, (shuffle s l).Perm l) (prior : List (String × String)) :
    ∀ (fuel : ℕ) (carry : List String) (bs : List (List String)),
      bs.length ≤ fuel → carry.Nodup → bs.flatten.Nodup →
      (∀ x ∈ carry, ∀ l ∈ bs.tail, x ∉ l) →
      ∀ pr cf, bracketLoopAux shuffle prior fuel carry bs = (pr, cf) →
        ((flatPairs pr ++ cf).Perm (pyDedupe (carry ++ bs.flatten))
          ∧ (∀ p ∈ pr, p.1 ≠ p.2)
          ∧ (cf.length ≤ 1 ∨ (bs = [] ∧ cf = carry))) := by
  intro fuel
  induction fuel with
  | zero =>
    intro carry bs hlen hcnd hfnd hdisj pr cf heq
    have hbs : bs = [] := List.length_eq_zero.mp (Nat.le_zero.mp hlen)
    subst hbs
    rw [bracketLoopAux_nil] at heq
    injection heq with h1 h2
    subst h1
    subst h2
    refine ⟨?_, ?_, Or.inr ⟨rfl, rfl⟩⟩
    · rw [show (([] : List (List String)).flatten) = [] from rfl, List.append_nil,
        pyDedupe_eq_self carry hcnd]
      exact List.Perm.refl _
    · intro p hp
      exact absurd hp (List.not_mem_nil p)
  | succ fuel ih =>
    intro carry bs hlen hcnd hfnd hdisj pr cf heq
    rcases bs with _ | ⟨bucket, rest⟩
    · rw [bracketLoopAux_nil] at heq
      injection heq with h1 h2
      subst h1
      subst h2
      refine ⟨?_, ?_, Or.inr ⟨rfl, rfl⟩⟩
      · rw [show (([] : List (List String)).flatten) = [] from rfl, List.append_nil,
          pyDedupe_eq_self carry hcnd]
        exact List.Perm.refl _
      · intro p hp
        exact absurd hp (List.not_mem_nil p)
    · have hrestfuel : rest.length ≤ fuel := Nat.succ_le_succ_iff.mp hlen
      have hflc : ((bucket :: rest).flatten) = bucket ++ rest.flatten := rfl
      have hbnd : bucket.Nodup := by
        rw [hflc] at hfnd
        exact (List.nodup_append.mp hfnd).1
      have hrestnd : rest.flatten.Nodup := by
        rw [hflc] at hfnd
        exact (List.nodup_append.mp hfnd).2.1
      have hbdisj : ∀ x ∈ bucket, x ∉ rest.flatten := by
        rw [hflc] at hfnd
        exact fun x hx hy => (List.nodup_append.mp hfnd).2.2 hx hy
      have hcfr : ∀ x ∈ carry, x ∉ rest.flatten := by
        intro x hx hy
        obtain ⟨l, hl, hxl⟩ := List.mem_flatten.mp hy
        exact hdisj x hx l hl hxl
      have hfresh2 : ∀ x ∈ rest.flatten, x ∉ carry ++ bucket := by
        intro x hx hmem
        rcases List.mem_append.mp hmem with h | h
        · exact hcfr x h hx
        · exact hbdisj x h hx
      have hkey : pyDedupe (carry ++ (bucket :: rest).flatten)
          = pyDedupe (carry ++ bucket) ++ rest.flatten := by
        rw [hflc, ← List.append_assoc]
        exact pyDedupe_append_fresh (carry ++ bucket) rest.flatten hrestnd hfresh2
      have hw1nd : (pyDedupe (carry ++ bucket)).Nodup := nodup_pyDedupe _
      have hw1fr : ∀ x ∈ pyDedupe (carry ++ bucket), x ∉ rest.flatten := by
        intro x hx
        exact fun hy => hfresh2 x hy ((mem_pyDedupe x _).mp hx)
      simp only [bracketLoopAux] at heq
      by_cases hem : (pyDedupe (carry ++ bucket)).isEmpty
      · rw [if_pos hem] at heq
        have hw1nil : pyDedupe (carry ++ bucket) = [] := by
          rcases hv : pyDedupe (carry ++ bucket) with _ | ⟨y, ys⟩
          · rfl
          · rw [hv] at hem
            exact absurd hem (by simp)
        obtain ⟨hperm, hns, hcf⟩ := ih [] rest hrestfuel (List.nodup_nil) hrestnd
          (fun x hx => absurd hx (List.not_mem_nil x)) pr cf heq
        rw [List.nil_append, pyDedupe_eq_self rest.flatten hrestnd] at hperm
        refine ⟨?_, hns, ?_⟩
        · rw [hkey, hw1nil, List.nil_append]
          exact hperm
        · rcases hcf with h | ⟨_, h⟩
          · exact Or.inl h
          · rw [h]
            exact Or.inl (by simp)
      · rw [if_neg hem] at heq
        have hw1ne : pyDedupe (carry ++ bucket) ≠ [] := by
          intro h
          rw [h] at hem
          exact hem rfl
        have hrec : ∀ (carry' : List String) (bs' : List (List String)),
            bs'.length ≤ rest.length → carry'.Nodup → bs'.flatten.Nodup →
            (∀ x ∈ carry', ∀ l ∈ bs'.tail, x ∉ l) →
            ∀ pr' cf', bracketLoopAux shuffle prior fuel carry' bs' = (pr', cf') →
              ((flatPairs pr' ++ cf').Perm (pyDedupe (carry' ++ bs'.flatten))
                ∧ (∀ p ∈ pr', p.1 ≠ p.2)
                ∧ (cf'.length ≤ 1 ∨ (bs' = [] ∧ cf' = carry'))) :=
          fun carry' bs' hle hnd hfnd' hdisj' =>
            ih carry' bs' (le_trans hle hrestfuel) hnd hfnd' hdisj'
        by_cases hodd : (pyDedupe (carry ++ bucket)).length % 2 = 1
        · simp only [if_pos hodd] at heq
          have hlast : (pyDedupe (carry ++ bucket)).getLastD "" ∈ pyDedupe (carry ++ bucket) :=
            getLastD_mem_of_ne_nil _ hw1ne
          obtain ⟨hperm, hns, hcf⟩ := bracketStep_spec shuffle hs prior
            (bracketLoopAux shuffle prior fuel) rest hrec
            (pyDedupe (carry ++ bucket)).dropLast
            [(pyDedupe (carry ++ bucket)).getLastD ""]
            ((List.dropLast_sublist _).nodup hw1nd)
            (by
              rw [List.length_dropLast]
              omega)
            (List.nodup_singleton _)
            (by simp)
            hrestnd
            (fun x hx => hw1fr x ((List.dropLast_sublist _).mem hx))
            (fun x hx => by
              rcases List.mem_singleton.mp hx with rfl
              exact hw1fr _ hlast)
            pr cf heq
          refine ⟨?_, hns, Or.inl hcf⟩
          rw [hkey]
          refine hperm.trans ?_
          rw [show ([(pyDedupe (carry ++ bucket)).getLastD ""] ++ rest.flatten)
              = (pyDedupe (carry ++ bucket)).getLastD "" :: rest.flatten from rfl]
          rw [show (pyDedupe (carry ++ bucket)).getLastD ""
              = (pyDedupe (carry ++ bucket)).getLast hw1ne from by
            rw [List.getLastD_eq_getLast?, List.getLast?_eq_getLast _ hw1ne]
            rfl]
          rw [show (pyDedupe (carry ++ bucket)).dropLast
                ++ ((pyDedupe (carry ++ bucket)).getLast hw1ne :: rest.flatten)
              = ((pyDedupe (carry ++ bucket)).dropLast
                ++ [(pyDedupe (carry ++ bucket)).getLast hw1ne]) ++ rest.flatten from by
            rw [List.append_assoc]
            rfl]
          rw [List.dropLast_append_getLast hw1ne]
        · simp only [if_neg hodd] at heq
          have hev : (pyDedupe (carry ++ bucket)).length % 2 = 0 := by
            rcases Nat.mod_two_eq_zero_or_one (pyDedupe (carry ++ bucket)).length with h | h
            · exact h
            · exact absurd h hodd
          obtain ⟨hperm, hns, hcf⟩ := bracketStep_spec shuffle hs prior
            (bracketLoopAux shuffle prior fuel) rest hrec
            (pyDedupe (carry ++ bucket)) []
            hw1nd hev (List.nodup_nil) (by simp) hrestnd
            hw1fr
            (fun x hx => absurd hx (List.not_mem_nil x))
            pr cf heq
          refine ⟨?_, hns, Or.inl hcf⟩
          rw [hkey]
          refine hperm.trans ?_
          rw [List.nil_append]

/-! ## Lemmas: validation, bye preselection, and `_pair_brackets` -/

theorem sInsert_perm {α : Type} (le : α → α → Bool) (x : α) :
    ∀ l : List α, (sInsert le x l).Perm (x :: l) := by
  intro l
  induction l with
  | nil => exact List.Perm.refl _
  | cons y ys ih =>
    unfold sInsert
    by_cases h : le x y
    · rw [if_pos h]
    · rw [if_neg h]
      exact (ih.cons y).trans (List.Perm.swap x y ys)

theorem stableSort_perm {α : Type} (le : α → α → Bool) :
    ∀ l : List α, (stableSort le l).Perm l := by
  intro l
  induction l with
  | nil => exact List.Perm.refl _
  | cons x xs ih =>
    exact (sInsert_perm le x (stableSort le xs)).trans (ih.cons x)

theorem flatPairs_length : ∀ ps : List (String × String),
    (flatPairs ps).length = 2 * ps.length := by
  intro ps
  induction ps with
  | nil => rfl
  | cons p ps ih =>
    rw [show flatPairs (p :: ps) = p.1 :: p.2 :: flatPairs ps from rfl]
    simp only [List.length_cons, ih]
    omega

theorem mem_flatPairs_fst {p : String × String} {ps : List (String × String)}
    (hp : p ∈ ps) : p.1 ∈ flatPairs ps :=
  List.mem_flatMap.mpr ⟨p, hp, by simp⟩

theorem mem_flatPairs_snd {p : String × String} {ps : List (String × String)}
    (hp : p ∈ ps) : p.2 ∈ flatPairs ps :=
  List.mem_flatMap.mpr ⟨p, hp, by simp⟩

theorem playersB_append (l₁ l₂ : List (String × String)) :
    playersB (l₁ ++ l₂) = playersB l₁ ++ playersB l₂ := by
  unfold playersB
  rw [List.flatMap_append]

theorem playersB_eq_flatPairs : ∀ ps : List (String × String),
    (∀ p ∈ ps, p.2 ≠ "BYE") → playersB ps = flatPairs ps := by
  intro ps
  induction ps with
  | nil => intro _; rfl
  | cons p ps ih =>
    intro h
    rw [show playersB (p :: ps)
        = (if p.2 = "BYE" then [p.1] else [p.1, p.2]) ++ playersB ps from rfl]
    rw [if_neg (h p (List.mem_cons_self _ _)), ih (fun q hq => h q (List.mem_cons_of_mem p hq))]
    rfl

theorem validAux_true : ∀ (ps : List (String × String)) (seen : List String),
    (∀ p ∈ ps, p.1 ≠ p.2) → (playersB ps).Nodup → (∀ x ∈ playersB ps, x ∉ seen) →
    validAux seen ps = true := by
  intro ps
  induction ps with
  | nil => intro seen _ _ _; rfl
  | cons p ps ih =>
    intro seen hns hnd hfresh
    rcases p with ⟨a, b⟩
    unfold validAux
    rw [if_neg (hns (a, b) (List.mem_cons_self _ _))]
    by_cases hb : b = "BYE"
    · rw [if_pos hb]
      have hP : playersB ((a, b) :: ps) = a :: playersB ps := by
        rw [show playersB ((a, b) :: ps)
            = (if b = "BYE" then [a] else [a, b]) ++ playersB ps from rfl, if_pos hb]
        rfl
      rw [hP] at hnd hfresh
      rw [if_neg (hfresh a (List.mem_cons_self _ _))]
      refine ih (a :: seen) (fun q hq => hns q (List.mem_cons_of_mem _ hq))
        ((List.nodup_cons.mp hnd).2) ?_
      intro x hx hmem
      rcases List.mem_cons.mp hmem with rfl | hmem2
      · exact (List.nodup_cons.mp hnd).1 hx
      · exact hfresh x (List.mem_cons_of_mem a hx) hmem2
    · rw [if_neg hb]
      have hP : playersB ((a, b) :: ps) = a :: b :: playersB ps := by
        rw [show playersB ((a, b) :: ps)
            = (if b = "BYE" then [a] else [a, b]) ++ playersB ps from rfl, if_neg hb]
        rfl
      rw [hP] at hnd hfresh
      have hna : a ∉ seen := hfresh a (List.mem_cons_self _ _)
      have hnb : b ∉ seen := hfresh b (List.mem_cons_of_mem a (List.mem_cons_self _ _))
      rw [if_neg (by
        rintro (h | h)
        · exact hna h
        · exact hnb h)]
      refine ih (b :: a :: seen) (fun q hq => hns q (List.mem_cons_of_mem _ hq))
        ((List.nodup_cons.mp ((List.nodup_cons.mp hnd).2)).2) ?_
      intro x hx hmem
      rcases List.mem_cons.mp hmem with rfl | hmem2
      · exact (List.nodup_cons.mp ((List.nodup_cons.mp hnd).2)).1 hx
      · rcases List.mem_cons.mp hmem2 with rfl | hmem3
        · exact (List.nodup_cons.mp hnd).1 (List.mem_cons_of_mem b hx)
        · exact hfresh x (List.mem_cons_of_mem a (List.mem_cons_of_mem b hx)) hmem3

theorem valid_of_nodup (ps : List (String × String)) (hns : ∀ p ∈ ps, p.1 ≠ p.2)
    (hnd : (playersB ps).Nodup) : _valid ps = true :=
  validAux_true ps [] hns hnd (by simp)

theorem findRemoveLastSat_some {α : Type} (p : α → Bool) :
    ∀ (l : List α) (c : α) (l' : List α), findRemoveLastSat p l = some (c, l') →
      p c = true ∧ (c :: l').Perm l := by
  intro l
  induction l with
  | nil =>
    intro c l' h
    exact absurd h (by simp [findRemoveLastSat])
  | cons x xs ih =>
    intro c l' h
    unfold findRemoveLastSat at h
    rcases hf : findRemoveLastSat p xs with _ | ⟨c2, xs'⟩
    · rw [hf] at h
      simp only [] at h
      by_cases hp : p x
      · rw [if_pos hp] at h
        injection h with h
        injection h with h1 h2
        subst h1
        subst h2
        exact ⟨hp, List.Perm.refl _⟩
      · rw [if_neg hp] at h
        exact absurd h (by simp)
    · rw [hf] at h
      simp only [] at h
      injection h with h
      injection h with h1 h2
      subst h1
      subst h2
      obtain ⟨hp, hperm⟩ := ih c2 xs' hf
      exact ⟨hp, (List.Perm.swap x c2 xs').trans (hperm.cons x)⟩

theorem findRemoveLastSat_true_none {α : Type} :
    ∀ l : List α, findRemoveLastSat (fun _ => true) l = none → l = [] := by
  intro l h
  cases l with
  | nil => rfl
  | cons x xs =>
    unfold findRemoveLastSat at h
    rcases hf : findRemoveLastSat (fun _ => true) xs with _ | ⟨c, xs'⟩
    · rw [hf] at h
      simp only [] at h
      rw [if_pos trivial] at h
      exact absurd h (by simp)
    · rw [hf] at h
      simp only [] at h
      exact absurd h (by simp)

theorem chooseByeA_perm (bye : List String) :
    ∀ (bs : List (List String)) (c : String) (bs' : List (List String)),
      chooseByeA bye bs = some (c, bs') → (c :: bs'.flatten).Perm bs.flatten := by
  intro bs
  induction bs with
  | nil =>
    intro c bs' h
    exact absurd h (by simp [chooseByeA])
  | cons b rest ih =>
    intro c bs' h
    unfold chooseByeA at h
    rcases hA : chooseByeA bye rest with _ | ⟨c2, bs2⟩
    · rw [hA] at h
      simp only [] at h
      rcases hF : findRemoveLastSat (fun x => decide (x ∉ bye)) b with _ | ⟨c3, b3⟩
      · rw [hF] at h
        simp only [] at h
        exact absurd h (by simp)
      · rw [hF] at h
        simp only [] at h
        injection h with h
        injection h with h1 h2
        subst h1
        subst h2
        obtain ⟨_, hperm⟩ := findRemoveLastSat_some _ b c3 b3 hF
        show ((c3 :: b3) ++ rest.flatten).Perm (b ++ rest.flatten)
        exact hperm.append_right rest.flatten
    · rw [hA] at h
      simp only [] at h
      injection h with h
      injection h with h1 h2
      subst h1
      subst h2
      show (c2 :: (b ++ bs2.flatten)).Perm (b ++ rest.flatten)
      refine List.Perm.trans ?_ (List.Perm.append_left b (ih c2 bs2 hA))
      exact List.perm_middle.symm

theorem chooseByeB_perm :
    ∀ (bs : List (List String)) (c : String) (bs' : List (List String)),
      chooseByeB bs = some (c, bs') → (c :: bs'.flatten).Perm bs.flatten := by
  intro bs
  induction bs with
  | nil =>
    intro c bs' h
    exact absurd h (by simp [chooseByeB])
  | cons b rest ih =>
    intro c bs' h
    unfold chooseByeB at h
    rcases hB : chooseByeB rest with _ | ⟨c2, bs2⟩
    · rw [hB] at h
      simp only [] at h
      rcases hF : findRemoveLastSat (fun _ => true) b with _ | ⟨c3, b3⟩
      · rw [hF] at h
        simp only [] at h
        exact absurd h (by simp)
      · rw [hF] at h
        simp only [] at h
        injection h with h
        injection h with h1 h2
        subst h1
        subst h2
        obtain ⟨_, hperm⟩ := findRemoveLastSat_some _ b c3 b3 hF
        show ((c3 :: b3) ++ rest.flatten).Perm (b ++ rest.flatten)
        exact hperm.append_right rest.flatten
    · rw [hB] at h
      simp only [] at h
      injection h with h
      injection h with h1 h2
      subst h1
      subst h2
      show (c2 :: (b ++ bs2.flatten)).Perm (b ++ rest.flatten)
      refine List.Perm.trans ?_ (List.Perm.append_left b (ih c2 bs2 hB))
      exact List.perm_middle.symm

theorem chooseByeB_none :
    ∀ bs : List (List String), chooseByeB bs = none → bs.flatten = [] := by
  intro bs
  induction bs with
  | nil => intro _; rfl
  | cons b rest ih =>
    intro h
    unfold chooseByeB at h
    rcases hB : chooseByeB rest with _ | ⟨c, bs2⟩
    · rw [hB] at h
      simp only [] at h
      rcases hF : findRemoveLastSat (fun _ => true) b with _ | ⟨c2, b2⟩
      · have hb : b = [] := findRemoveLastSat_true_none b hF
        show b ++ rest.flatten = []
        rw [hb, List.nil_append, ih hB]
      · rw [hF] at h
        simp only [] at h
        exact absurd h (by simp)
    · rw [hB] at h
      simp only [] at h
      exact absurd h (by simp)

theorem pairBracketsGo_spec (shuffle : ℕ → List String → List String)
    (hs : ∀ s l, (shuffle s l).Perm l) (prior : List (String × String))
    (byeP : Option String) (bs : List (List String))
    (hnd : (byeP.toList ++ bs.flatten).Nodup)
    (hbye : "BYE" ∉ byeP.toList ++ bs.flatten)
    (heven : bs.flatten.length % 2 = 0) :
    (playersB (pairBrackets_go shuffle prior byeP bs)).Perm (byeP.toList ++ bs.flatten)
      ∧ (∀ p ∈ pairBrackets_go shuffle prior byeP bs, p.1 ≠ p.2)
      ∧ (∀ p ∈ pairBrackets_go shuffle prior byeP bs, p.2 = "BYE" → byeP = some p.1) := by
  have hfnd : bs.flatten.Nodup := by
    rcases byeP with _ | c
    · exact hnd
    · exact (List.nodup_cons.mp hnd).2
  have hfbye : "BYE" ∉ bs.flatten := by
    intro hmem
    exact hbye (List.mem_append.mpr (Or.inr hmem))
  rcases hl : bracketLoopAux shuffle prior bs.length [] bs with ⟨pr, cf⟩
  obtain ⟨hperm, hns, hcf⟩ := bracketLoop_spec shuffle hs prior bs.length [] bs
    (le_refl _) List.nodup_nil hfnd
    (fun x hx => absurd hx (List.not_mem_nil x)) pr cf hl
  rw [List.nil_append, pyDedupe_eq_self _ hfnd] at hperm
  have hcf0 : cf = [] := by
    rcases hcf with h | ⟨_, h⟩
    · have hlen := hperm.length_eq
      rw [List.length_append, flatPairs_length] at hlen
      have : cf.length = 0 := by omega
      exact List.length_eq_zero.mp this
    · exact h
  subst hcf0
  rw [List.append_nil] at hperm
  have hmem : ∀ x ∈ flatPairs pr, x ∈ bs.flatten := fun x hx => hperm.mem_iff.mp hx
  have hprnd : (flatPairs pr).Nodup := hperm.nodup_iff.mpr hfnd
  have hnbye : ∀ p ∈ pr, p.2 ≠ "BYE" := by
    intro p hp h2
    have h3 := hmem _ (mem_flatPairs_snd hp)
    rw [h2] at h3
    exact hfbye h3
  have hpb : playersB pr = flatPairs pr := playersB_eq_flatPairs pr hnbye
  rcases byeP with _ | c
  · have hvalid : _valid (pr ++ []) = true := by
      rw [List.append_nil]
      refine valid_of_nodup pr hns ?_
      rw [hpb]
      exact hprnd
    simp only [pairBrackets_go]
    rw [hl]
    simp only []
    rw [if_pos hvalid, List.append_nil]
    refine ⟨?_, hns, ?_⟩
    · rw [hpb]
      exact hperm
    · intro p hp h2
      exact absurd h2 (hnbye p hp)
  · have hcnotin : c ∉ bs.flatten := (List.nodup_cons.mp hnd).1
    have hcne : c ≠ "BYE" := by
      intro h
      exact hbye (List.mem_append.mpr (Or.inl (by rw [← h]; exact List.mem_singleton.mpr rfl)))
    have hpBbye : playersB [(c, "BYE")] = [c] := by
      simp [playersB]
    have hplayers : playersB (pr ++ [(c, "BYE")]) = flatPairs pr ++ [c] := by
      rw [playersB_append, hpb, hpBbye]
    have hnsall : ∀ p ∈ pr ++ [(c, "BYE")], p.1 ≠ p.2 := by
      intro p hp
      rcases List.mem_append.mp hp with h | h
      · exact hns p h
      · rcases List.mem_singleton.mp h with rfl
        exact hcne
    have hndall : (playersB (pr ++ [(c, "BYE")])).Nodup := by
      rw [hplayers]
      refine nodup_append_of_disjoint hprnd (List.nodup_singleton c) ?_
      intro x hx hmem2
      rcases List.mem_singleton.mp hmem2 with rfl
      exact hcnotin (hmem x hx)
    have hvalid : _valid (pr ++ [(c, "BYE")]) = true :=
      valid_of_nodup _ hnsall hndall
    simp only [pairBrackets_go]
    rw [hl]
    simp only []
    rw [if_pos hvalid]
    refine ⟨?_, hnsall, ?_⟩
    · rw [hplayers]
      refine (hperm.append_right [c]).trans ?_
      exact List.perm_append_comm
    · intro p hp h2
      rcases List.mem_append.mp hp with h | h
      · exact absurd h2 (hnbye p h)
      · rcases List.mem_singleton.mp h with rfl
        rfl

theorem pairBrackets_spec (shuffle : ℕ → List String → List String)
    (hs : ∀ s l, (shuffle s l).Perm l) (brackets0 : List (List String))
    (prior : List (String × String)) (byeAlready : List String)
    (hnd : brackets0.flatten.Nodup) (hbye : "BYE" ∉ brackets0.flatten) :
    (playersB (_pair_brackets shuffle brackets0 prior byeAlready)).Perm brackets0.flatten
      ∧ (∀ p ∈ _pair_brackets shuffle brackets0 prior byeAlready, p.1 ≠ p.2)
      ∧ (brackets0.flatten.length % 2 = 0 →
          ∀ p ∈ _pair_brackets shuffle brackets0 prior byeAlready, p.2 ≠ "BYE") := by
  have htot : (brackets0.map List.length).sum = brackets0.flatten.length :=
    (List.length_flatten brackets0).symm
  by_cases hpar : (brackets0.map List.length).sum % 2 = 1
  · have hflodd : brackets0.flatten.length % 2 = 1 := by rw [← htot]; exact hpar
    have hgo : ∀ (c : String) (bs' : List (List String)),
        (c :: bs'.flatten).Perm brackets0.flatten →
        (playersB (pairBrackets_go shuffle prior (some c) bs')).Perm brackets0.flatten
          ∧ (∀ p ∈ pairBrackets_go shuffle prior (some c) bs', p.1 ≠ p.2)
          ∧ (brackets0.flatten.length % 2 = 0 →
              ∀ p ∈ pairBrackets_go shuffle prior (some c) bs', p.2 ≠ "BYE") := by
      intro c bs' hcperm
      have hnd' : ((some c).toList ++ bs'.flatten).Nodup := hcperm.nodup_iff.mpr hnd
      have hbye' : "BYE" ∉ (some c).toList ++ bs'.flatten := by
        intro hmem
        exact hbye (hcperm.mem_iff.mp hmem)
      have heven' : bs'.flatten.length % 2 = 0 := by
        have := hcperm.length_eq
        simp only [List.length_cons] at this
        omega
      obtain ⟨h1, h2, _⟩ := pairBracketsGo_spec shuffle hs prior (some c) bs' hnd' hbye' heven'
      refine ⟨h1.trans hcperm, h2, ?_⟩
      intro hev
      rw [hev] at hflodd
      exact absurd hflodd (by simp)
    rcases hA : chooseByeA byeAlready brackets0 with _ | ⟨c, bs'⟩
    · rcases hB : chooseByeB brackets0 with _ | ⟨c, bs'⟩
      · have hflnil := chooseByeB_none brackets0 hB
        rw [hflnil] at hflodd
        exact absurd hflodd (by simp)
      · have := hgo c bs' (chooseByeB_perm brackets0 c bs' hB)
        simp only [_pair_brackets, if_pos hpar, hA, hB]
        exact this
    · have := hgo c bs' (chooseByeA_perm byeAlready brackets0 c bs' hA)
      simp only [_pair_brackets, if_pos hpar, hA]
      exact this
  · have hfleven : brackets0.flatten.length % 2 = 0 := by
      rcases Nat.mod_two_eq_zero_or_one (brackets0.map List.length).sum with h | h
      · rw [← htot]; exact h
      · exact absurd h hpar
    obtain ⟨h1, h2, h3⟩ := pairBracketsGo_spec shuffle hs prior none brackets0
      (by rw [show ((none : Option String).toList ++ brackets0.flatten) = brackets0.flatten from rfl]
          exact hnd)
      (by rw [show ((none : Option String).toList ++ brackets0.flatten) = brackets0.flatten from rfl]
          exact hbye)
      hfleven
    simp only [_pair_brackets, if_neg hpar]
    refine ⟨?_, h2, ?_⟩
    · exact h1
    · intro _ p hp h2'
      exact absurd (h3 p hp h2') (by simp)

/-! ## Lemmas: bracket building, bye choice and the emitted match lists -/

theorem flatten_buckets_perm {κ : Type} [DecidableEq κ] (kf : String → κ)
    (keyList : List κ) (sortB : List String → List String)
    (hsort : ∀ l, (sortB l).Perm l)
    (hkeys : keyList.Nodup) (ids : List String) (hnd : ids.Nodup)
    (hcov : ∀ x ∈ ids, kf x ∈ keyList) :
    ((keyList.map (fun k => sortB (ids.filter (fun pid => kf pid = k)))).flatten).Perm ids := by
  have hbn : ∀ l ∈ keyList.map (fun k => sortB (ids.filter (fun pid => kf pid = k))), l.Nodup := by
    intro l hl
    obtain ⟨k, _, rfl⟩ := List.mem_map.mp hl
    exact (hsort _).nodup_iff.mpr (hnd.filter _)
  have hmemb : ∀ (k : κ) (x : String),
      x ∈ sortB (ids.filter (fun pid => kf pid = k)) → x ∈ ids ∧ kf x = k := by
    intro k x hx
    have := (hsort _).mem_iff.mp hx
    obtain ⟨h1, h2⟩ := List.mem_filter.mp this
    exact ⟨h1, of_decide_eq_true h2⟩
  have hfl : ((keyList.map (fun k => sortB (ids.filter (fun pid => kf pid = k)))).flatten).Nodup := by
    rw [List.nodup_flatten]
    refine ⟨hbn, ?_⟩
    rw [List.pairwise_map]
    refine hkeys.imp ?_
    intro k k' hne x hx1 hx2
    exact hne ((hmemb k x hx1).2 ▸ (hmemb k' x hx2).2 ▸ rfl)
  rw [List.perm_ext_iff_of_nodup hfl hnd]
  intro x
  constructor
  · intro hx
    obtain ⟨l, hl, hxl⟩ := List.mem_flatten.mp hx
    obtain ⟨k, _, rfl⟩ := List.mem_map.mp hl
    exact (hmemb k x hxl).1
  · intro hx
    refine List.mem_flatten.mpr ⟨sortB (ids.filter (fun pid => kf pid = kf x)), ?_, ?_⟩
    · exact List.mem_map_of_mem _ (hcov x hx)
    · exact (hsort _).mem_iff.mpr (List.mem_filter.mpr ⟨hx, by simp⟩)

theorem buildBrackets_flatten (t : Tournament) (ids : List String) (hnd : ids.Nodup) :
    (_build_brackets t ids).flatten.Perm ids := by
  show ((stableSort (fun a b => decide (b ≤ a)) (pyDedupe (ids.map (ptsById t)))).map
      (fun k => stableSort (bracketLe t) (ids.filter (fun pid => ptsById t pid = k)))).flatten.Perm
      ids
  refine flatten_buckets_perm (ptsById t) _ _ (stableSort_perm _) ?_ ids hnd ?_
  · exact (stableSort_perm _ _).nodup_iff.mpr (nodup_pyDedupe _)
  · intro x hx
    exact (stableSort_perm _ _).mem_iff.mpr
      ((mem_pyDedupe _ _).mpr (List.mem_map_of_mem (ptsById t) hx))

theorem chooseByeId_mem (t : Tournament) (h : t.players.map Player.id ≠ []) :
    _choose_bye_id t ∈ t.players.map Player.id := by
  have hp := stableSort_perm (byeLe t) (t.players.map Player.id)
  rcases hv : stableSort (byeLe t) (t.players.map Player.id) with _ | ⟨y, ys⟩
  · rw [hv] at hp
    exact absurd (List.Perm.eq_nil hp.symm) h
  · rw [hv] at hp
    show (stableSort (byeLe t) (t.players.map Player.id)).headD "" ∈ _
    rw [hv]
    exact hp.mem_iff.mp (List.mem_cons_self _ _)

theorem filter_ne_perm : ∀ (ids : List String) (b : String), ids.Nodup → b ∈ ids →
    (b :: ids.filter (fun pid => pid ≠ b)).Perm ids := by
  intro ids
  induction ids with
  | nil =>
    intro b _ hb
    exact absurd hb (List.not_mem_nil b)
  | cons x xs ih =>
    intro b hnd hb
    by_cases hxb : x = b
    · subst hxb
      have hnotin : x ∉ xs := (List.nodup_cons.mp hnd).1
      rw [show (x :: xs).filter (fun pid => pid ≠ x) = xs.filter (fun pid => pid ≠ x) from by
        rw [List.filter_cons]
        simp]
      rw [List.filter_eq_self.mpr ?allne]
      case allne =>
        intro y hy
        simp only [decide_eq_true_eq]
        intro h
        exact hnotin (h ▸ hy)
    · have hbxs : b ∈ xs := by
        rcases List.mem_cons.mp hb with h | h
        · exact absurd h.symm hxb
        · exact h
      rw [show (x :: xs).filter (fun pid => pid ≠ b) = x :: xs.filter (fun pid => pid ≠ b) from by
        rw [List.filter_cons]
        simp [Ne.symm, hxb]]
      refine List.Perm.trans (List.Perm.swap x b _) ?_
      exact (ih b (List.nodup_cons.mp hnd).2 hbxs).cons x

theorem roundPlayers_append (l₁ l₂ : List Match) :
    roundPlayers (l₁ ++ l₂) = roundPlayers l₁ ++ roundPlayers l₂ := by
  unfold roundPlayers
  rw [List.flatMap_append]

theorem roundPlayers_matchesOfPairs (mkId : ℕ → String) (base : ℕ)
    (ps : List (String × String)) :
    roundPlayers (matchesOfPairs mkId base ps) = flatPairs ps := by
  have key : ∀ l : List (ℕ × String × String),
      (l.map (fun ip : ℕ × String × String =>
        ({ id := mkId (base + ip.1 + 1), t := base + ip.1 + 1, a := ip.2.1,
           b := some ip.2.2, r := "PENDING" } : Match))).flatMap
        (fun m => m.a :: m.b.toList)
      = l.flatMap (fun ip => [ip.2.1, ip.2.2]) := by
    intro l
    induction l with
    | nil => rfl
    | cons x xs ih =>
      rw [List.map_cons, List.flatMap_cons, List.flatMap_cons, ih]
      rfl
  have key2 : ∀ l : List (ℕ × String × String),
      l.flatMap (fun ip => [ip.2.1, ip.2.2])
      = (l.map Prod.snd).flatMap (fun p => [p.1, p.2]) := by
    intro l
    induction l with
    | nil => rfl
    | cons x xs ih =>
      rw [List.flatMap_cons, List.map_cons, List.flatMap_cons, ih]
  unfold roundPlayers matchesOfPairs
  rw [key ps.enum, key2 ps.enum, List.enum_map_snd]
  rfl

theorem mem_matchesOfPairs {m : Match} {mkId : ℕ → String} {base : ℕ}
    {ps : List (String × String)} (h : m ∈ matchesOfPairs mkId base ps) :
    ∃ p ∈ ps, m.a = p.1 ∧ m.b = some p.2 ∧ m.r = "PENDING" := by
  obtain ⟨ip, hip, rfl⟩ := List.mem_map.mp h
  refine ⟨ip.2, ?_, rfl, rfl, rfl⟩
  have h2 := List.mem_map_of_mem Prod.snd hip
  rw [List.enum_map_snd] at h2
  exact h2

theorem byeMatchList_some (mkId : ℕ → String) (k : ℕ) (b : String) (hb : b ≠ "") :
    byeMatchList mkId k (some b)
      = [{ id := mkId (k + 1), t := k + 1, a := b, b := none, r := "BYE" }] := by
  show (if b ≠ "" then
      [({ id := mkId (k + 1), t := k + 1, a := b, b := none, r := "BYE" } : Match)]
    else []) = _
  rw [if_pos hb]

theorem roundPlayers_byeSome (mkId : ℕ → String) (k : ℕ) (b : String) (hb : b ≠ "") :
    roundPlayers (byeMatchList mkId k (some b)) = [b] := by
  rw [byeMatchList_some mkId k b hb]
  rfl

theorem matchingValidR_matchesOfPairs (mkId : ℕ → String) (base : ℕ)
    (ps : List (String × String)) (hNS : ∀ p ∈ ps, p.1 ≠ p.2)
    (hnd : (flatPairs ps).Nodup) : matchingValidR (matchesOfPairs mkId base ps) := by
  constructor
  · intro m hm x hbx
    obtain ⟨p, hp, ha, hb, _⟩ := mem_matchesOfPairs hm
    rw [ha]
    rw [hb] at hbx
    injection hbx with hbx
    rw [← hbx]
    exact hNS p hp
  · rw [roundPlayers_matchesOfPairs]
    exact hnd

theorem matchingValidR_withBye (mkId : ℕ → String) (ps : List (String × String))
    (k : ℕ) (b : String) (hb : b ≠ "") (hNS : ∀ p ∈ ps, p.1 ≠ p.2)
    (hnd : (flatPairs ps).Nodup) (hnotin : b ∉ flatPairs ps) :
    matchingValidR (matchesOfPairs mkId 0 ps ++ byeMatchList mkId k (some b)) := by
  constructor
  · intro m hm x hbx
    rcases List.mem_append.mp hm with h | h
    · obtain ⟨p, hp, ha, hbm, _⟩ := mem_matchesOfPairs h
      rw [ha]
      rw [hbm] at hbx
      injection hbx with hbx
      rw [← hbx]
      exact hNS p hp
    · rw [byeMatchList_some mkId k b hb] at h
      rcases List.mem_singleton.mp h with rfl
      exact absurd hbx (by simp)
  · rw [roundPlayers_append, roundPlayers_matchesOfPairs, roundPlayers_byeSome mkId k b hb]
    refine nodup_append_of_disjoint hnd (List.nodup_singleton _) ?_
    intro x hx hm
    rcases List.mem_singleton.mp hm with rfl
    exact hnotin hx

theorem pairNext_snd_odd (shuffle : ℕ → List String → List String) (mkId : ℕ → String)
    (t : Tournament) (hodd : (t.players.map Player.id).length % 2 = 1) :
    (pair_next shuffle mkId t).2
      = matchesOfPairs mkId 0 (_pair_brackets shuffle (_build_brackets t
          ((t.players.map Player.id).filter (fun pid => pid ≠ _choose_bye_id t)))
          (prior_pairs_set t) [])
        ++ byeMatchList mkId (_pair_brackets shuffle (_build_brackets t
          ((t.players.map Player.id).filter (fun pid => pid ≠ _choose_bye_id t)))
          (prior_pairs_set t) []).length (some (_choose_bye_id t)) := by
  simp only [pair_next]
  rw [if_pos hodd]

theorem pairNext_snd_even (shuffle : ℕ → List String → List String) (mkId : ℕ → String)
    (t : Tournament) (hodd : ¬(t.players.map Player.id).length % 2 = 1) :
    (pair_next shuffle mkId t).2
      = matchesOfPairs mkId 0 (_pair_brackets shuffle
          (_build_brackets t (t.players.map Player.id)) (prior_pairs_set t) [])
        ++ byeMatchList mkId (_pair_brackets shuffle
          (_build_brackets t (t.players.map Player.id)) (prior_pairs_set t) []).length
          none := by
  simp only [pair_next]
  rw [if_neg hodd]

theorem pairNext_spec (shuffle : ℕ → List String → List String)
    (hs : ∀ s l, (shuffle s l).Perm l) (mkId : ℕ → String) (t : Tournament)
    (hnd : (t.players.map Player.id).Nodup)
    (hbye : "BYE" ∉ t.players.map Player.id)
    (hemp : "" ∉ t.players.map Player.id) :
    matchingValidR (pair_next shuffle mkId t).2
      ∧ (roundPlayers (pair_next shuffle mkId t).2).Perm (t.players.map Player.id) := by
  by_cases hodd : (t.players.map Player.id).length % 2 = 1
  · -- odd roster: a BYE recipient is removed up front and gets the closing BYE match
    have hne : t.players.map Player.id ≠ [] := by
      intro h0
      rw [h0] at hodd
      exact absurd hodd (by simp)
    have hbmem : _choose_bye_id t ∈ t.players.map Player.id := chooseByeId_mem t hne
    have hbne : _choose_bye_id t ≠ "" := fun h => hemp (h ▸ hbmem)
    have hfperm : (_choose_bye_id t ::
        (t.players.map Player.id).filter (fun pid => pid ≠ _choose_bye_id t)).Perm
        (t.players.map Player.id) := filter_ne_perm _ _ hnd hbmem
    have hallnd : ((t.players.map Player.id).filter
        (fun pid => pid ≠ _choose_bye_id t)).Nodup := hnd.filter _
    have hallbye : "BYE" ∉ (t.players.map Player.id).filter
        (fun pid => pid ≠ _choose_bye_id t) := by
      intro h
      exact hbye (List.mem_filter.mp h).1
    have halle : ((t.players.map Player.id).filter
        (fun pid => pid ≠ _choose_bye_id t)).length % 2 = 0 := by
      have := hfperm.length_eq
      simp only [List.length_cons] at this
      omega
    have hbnotall : _choose_bye_id t ∉ (t.players.map Player.id).filter
        (fun pid => pid ≠ _choose_bye_id t) := by
      intro h
      have := (List.mem_filter.mp h).2
      simp at this
    have hbf := buildBrackets_flatten t
      ((t.players.map Player.id).filter (fun pid => pid ≠ _choose_bye_id t)) hallnd
    obtain ⟨hP, hNS, hNB⟩ := pairBrackets_spec shuffle hs
      (_build_brackets t ((t.players.map Player.id).filter
        (fun pid => pid ≠ _choose_bye_id t)))
      (prior_pairs_set t) []
      (hbf.nodup_iff.mpr hallnd)
      (fun h => hallbye (hbf.mem_iff.mp h))
    have hNB2 := hNB (by rw [hbf.length_eq]; exact halle)
    have hflatperm : (flatPairs (_pair_brackets shuffle (_build_brackets t
        ((t.players.map Player.id).filter (fun pid => pid ≠ _choose_bye_id t)))
        (prior_pairs_set t) [])).Perm
        ((t.players.map Player.id).filter (fun pid => pid ≠ _choose_bye_id t)) := by
      rw [← playersB_eq_flatPairs _ hNB2]
      exact hP.trans hbf
    rw [pairNext_snd_odd shuffle mkId t hodd]
    constructor
    · exact matchingValidR_withBye mkId _ _ _ hbne hNS (hflatperm.nodup_iff.mpr hallnd)
        (fun hx => hbnotall (hflatperm.mem_iff.mp hx))
    · rw [roundPlayers_append, roundPlayers_matchesOfPairs,
        roundPlayers_byeSome mkId _ _ hbne]
      exact ((hflatperm.append_right _).trans List.perm_append_comm).trans hfperm
  · -- even roster: no BYE, the pairs cover the whole roster
    have hbf := buildBrackets_flatten t (t.players.map Player.id) hnd
    obtain ⟨hP, hNS, hNB⟩ := pairBrackets_spec shuffle hs
      (_build_brackets t (t.players.map Player.id)) (prior_pairs_set t) []
      (hbf.nodup_iff.mpr hnd)
      (fun h => hbye (hbf.mem_iff.mp h))
    have heven : (t.players.map Player.id).length % 2 = 0 := by
      rcases Nat.mod_two_eq_zero_or_one (t.players.map Player.id).length with h | h
      · exact h
      · exact absurd h hodd
    have hNB2 := hNB (by rw [hbf.length_eq]; exact heven)
    have hflatperm : (flatPairs (_pair_brackets shuffle
        (_build_brackets t (t.players.map Player.id))
        (prior_pairs_set t) [])).Perm (t.players.map Player.id) := by
      rw [← playersB_eq_flatPairs _ hNB2]
      exact hP.trans hbf
    rw [pairNext_snd_even shuffle mkId t hodd,
      show byeMatchList mkId (_pair_brackets shuffle
          (_build_brackets t (t.players.map Player.id)) (prior_pairs_set t) []).length
          none = ([] : List Match) from rfl,
      List.append_nil]
    constructor
    · exact matchingValidR_matchesOfPairs mkId 0 _ hNS (hflatperm.nodup_iff.mpr hnd)
    · rw [roundPlayers_matchesOfPairs]
      exact hflatperm

/-! ## Lemmas: restart inversion and the override pipeline -/

theorem restart_ok_inv (shuffle : ℕ → List String → List String) (mkId : ℕ → String)
    (t : Tournament) (n : ℕ) (ms : List Match) (t' : Tournament)
    (h : restart_current_round_doc shuffle mkId t = .ok n ms t') :
    ms = (pair_next shuffle mkId { t with rounds := t.rounds.dropLast }).2
      ∧ t' = { t with rounds := t.rounds.dropLast } := by
  rcases hl : latest_round t with _ | last
  · unfold restart_current_round_doc at h
    rw [hl] at h
    simp only [] at h
    exact absurd h (by simp)
  · rw [restart_current_round_doc_some shuffle mkId t last hl] at h
    by_cases hp : round_has_pending (some last) = false
    · rw [if_pos hp] at h
      exact absurd h (by simp)
    · rw [if_neg hp] at h
      injection h with h1 h2 h3
      exact ⟨h2.symm, h3.symm⟩

theorem lockedFold_spec (allIds : List String) :
    ∀ (lps : List (String × String)) (acc : List (String × String) × List String),
      (∀ p ∈ acc.1, p.1 ≠ p.2) → acc.2.Nodup → (∀ x ∈ acc.2, x ∈ allIds) →
      (flatPairs acc.1).Perm acc.2 →
      ((∀ p ∈ (lps.foldl (lockedStep allIds) acc).1, p.1 ≠ p.2)
        ∧ (lps.foldl (lockedStep allIds) acc).2.Nodup
        ∧ (∀ x ∈ (lps.foldl (lockedStep allIds) acc).2, x ∈ allIds)
        ∧ (flatPairs (lps.foldl (lockedStep allIds) acc).1).Perm
            (lps.foldl (lockedStep allIds) acc).2) := by
  intro lps
  induction lps with
  | nil =>
    intro acc h1 h2 h3 h4
    exact ⟨h1, h2, h3, h4⟩
  | cons ab lps ih =>
    intro acc h1 h2 h3 h4
    rw [List.foldl_cons]
    unfold lockedStep
    by_cases hc1 : ab.1 = "" ∨ ab.2 = "" ∨ ab.1 = ab.2
    · rw [if_pos hc1]
      exact ih acc h1 h2 h3 h4
    · rw [if_neg hc1]
      by_cases hc2 : ab.1 ∈ allIds ∧ ab.2 ∈ allIds ∧ ab.1 ∉ acc.2 ∧ ab.2 ∉ acc.2
      · rw [if_pos hc2]
        obtain ⟨ha1, ha2, ha3, ha4⟩ := hc2
        have hne : ab.1 ≠ ab.2 := fun h => hc1 (Or.inr (Or.inr h))
        refine ih _ ?_ ?_ ?_ ?_
        · intro p hp
          rcases List.mem_append.mp hp with h | h
          · exact h1 p h
          · rcases List.mem_singleton.mp h with rfl
            exact hne
        · refine List.Nodup.cons ?_ (List.Nodup.cons ha3 h2)
          intro hmem
          rcases List.mem_cons.mp hmem with h | h
          · exact hne h.symm
          · exact ha4 h
        · intro x hx
          rcases List.mem_cons.mp hx with rfl | hx2
          · exact ha2
          · rcases List.mem_cons.mp hx2 with rfl | hx3
            · exact ha1
            · exact h3 x hx3
        · rw [flatPairs_append]
          rw [show flatPairs [ab] = [ab.1, ab.2] from rfl]
          refine List.Perm.trans (h4.append_right [ab.1, ab.2]) ?_
          refine List.Perm.trans List.perm_append_comm ?_
          exact List.Perm.swap ab.2 ab.1 acc.2
      · rw [if_neg hc2]
        exact ih acc h1 h2 h3 h4

theorem roundPlayers_restMatches (mkId : ℕ → String) (base : ℕ)
    (ps : List (String × String)) :
    roundPlayers (restMatches mkId base ps) = playersB ps := by
  have key : ∀ l : List (ℕ × String × String),
      (l.map (fun ip : ℕ × String × String =>
        if ip.2.2 = "BYE" then
          ({ id := mkId (base + ip.1 + 1), t := base + ip.1 + 1, a := ip.2.1, b := none,
             r := "BYE" } : Match)
        else
          ({ id := mkId (base + ip.1 + 1), t := base + ip.1 + 1, a := ip.2.1,
             b := some ip.2.2, r := "PENDING" } : Match))).flatMap
        (fun m => m.a :: m.b.toList)
      = l.flatMap (fun ip => if ip.2.2 = "BYE" then [ip.2.1] else [ip.2.1, ip.2.2]) := by
    intro l
    induction l with
    | nil => rfl
    | cons x xs ih =>
      rw [List.map_cons, List.flatMap_cons, List.flatMap_cons, ih]
      by_cases hc : x.2.2 = "BYE"
      · rw [if_pos hc, if_pos hc]
        rfl
      · rw [if_neg hc, if_neg hc]
        rfl
  have key2 : ∀ l : List (ℕ × String × String),
      l.flatMap (fun ip => if ip.2.2 = "BYE" then [ip.2.1] else [ip.2.1, ip.2.2])
      = (l.map Prod.snd).flatMap (fun p => if p.2 = "BYE" then [p.1] else [p.1, p.2]) := by
    intro l
    induction l with
    | nil => rfl
    | cons x xs ih =>
      rw [List.flatMap_cons, List.map_cons, List.flatMap_cons, ih]
  unfold roundPlayers restMatches
  rw [key ps.enum, key2 ps.enum, List.enum_map_snd]
  rfl

theorem mem_restMatches {m : Match} {mkId : ℕ → String} {base : ℕ}
    {ps : List (String × String)} (h : m ∈ restMatches mkId base ps) :
    (∃ p ∈ ps, m.a = p.1 ∧ m.b = some p.2) ∨ m.b = none := by
  obtain ⟨ip, hip, rfl⟩ := List.mem_map.mp h
  by_cases hc : ip.2.2 = "BYE"
  · right
    rw [if_pos hc]
  · left
    refine ⟨ip.2, ?_, ?_, ?_⟩
    · have h2 := List.mem_map_of_mem Prod.snd hip
      rw [List.enum_map_snd] at h2
      exact h2
    · rw [if_neg hc]
    · rw [if_neg hc]

theorem sub_filter_perm {l sub : List String} (hl : l.Nodup) (hsubnd : sub.Nodup)
    (hsub : ∀ x ∈ sub, x ∈ l) :
    (sub ++ l.filter (fun x => x ∉ sub)).Perm l := by
  have hfnd : (l.filter (fun x => x ∉ sub)).Nodup := hl.filter _
  have hnd2 : (sub ++ l.filter (fun x => x ∉ sub)).Nodup := by
    refine nodup_append_of_disjoint hsubnd hfnd ?_
    intro x hx hmem
    have h2 := (List.mem_filter.mp hmem).2
    simp only [decide_eq_true_eq] at h2
    exact h2 hx
  rw [List.perm_ext_iff_of_nodup hnd2 hl]
  intro x
  constructor
  · intro hx
    rcases List.mem_append.mp hx with h | h
    · exact hsub x h
    · exact (List.mem_filter.mp h).1
  · intro hx
    by_cases hxs : x ∈ sub
    · exact List.mem_append.mpr (Or.inl hxs)
    · exact List.mem_append.mpr (Or.inr (List.mem_filter.mpr ⟨hx, by simpa using hxs⟩))

theorem pnwo_snd (shuffle : ℕ → List String → List String) (mkId : ℕ → String)
    (t : Tournament) (lockedPairs : List (String × String)) :
    (pair_next_with_overrides shuffle mkId t lockedPairs).2.1
      = matchesOfPairs mkId 0
          (lockedPairs.foldl (lockedStep (pyDedupe (t.players.map Player.id))) ([], [])).1
        ++ restMatches mkId
          (lockedPairs.foldl (lockedStep (pyDedupe (t.players.map Player.id))) ([], [])).1.length
          (_pair_brackets shuffle
            (_build_brackets t ((pyDedupe (t.players.map Player.id)).filter
              (fun pid => pid ∉ (lockedPairs.foldl
                (lockedStep (pyDedupe (t.players.map Player.id))) ([], [])).2)))
            (prior_pairs_set t)
            (_bye_already_from_rounds t ++ _bye_history_get t)) := rfl

theorem pnwo_spec (shuffle : ℕ → List String → List String)
    (hs : ∀ s l, (shuffle s l).Perm l) (mkId : ℕ → String) (t : Tournament)
    (lockedPairs : List (String × String))
    (hbye : "BYE" ∉ t.players.map Player.id) :
    matchingValidR (pair_next_with_overrides shuffle mkId t lockedPairs).2.1
      ∧ (roundPlayers (pair_next_with_overrides shuffle mkId t lockedPairs).2.1).Perm
          (pyDedupe (t.players.map Player.id)) := by
  have hallnd : (pyDedupe (t.players.map Player.id)).Nodup := nodup_pyDedupe _
  have hallbye : "BYE" ∉ pyDedupe (t.players.map Player.id) :=
    fun h => hbye ((mem_pyDedupe _ _).mp h)
  obtain ⟨hSLns, hLFnd, hLFsub, hSLperm⟩ :=
    lockedFold_spec (pyDedupe (t.players.map Player.id)) lockedPairs ([], [])
      (fun p hp => absurd hp (List.not_mem_nil p)) List.nodup_nil
      (fun x hx => absurd hx (List.not_mem_nil x)) List.Perm.nil
  have hremnd : ((pyDedupe (t.players.map Player.id)).filter (fun pid => pid ∉
      (lockedPairs.foldl (lockedStep (pyDedupe (t.players.map Player.id)))
        ([], [])).2)).Nodup := hallnd.filter _
  have hrembye : "BYE" ∉ (pyDedupe (t.players.map Player.id)).filter (fun pid => pid ∉
      (lockedPairs.foldl (lockedStep (pyDedupe (t.players.map Player.id)))
        ([], [])).2) := by
    intro h
    exact hallbye (List.mem_filter.mp h).1
  have hbf := buildBrackets_flatten t
    ((pyDedupe (t.players.map Player.id)).filter (fun pid => pid ∉
      (lockedPairs.foldl (lockedStep (pyDedupe (t.players.map Player.id))) ([], [])).2))
    hremnd
  obtain ⟨hP, hNS, _⟩ := pairBrackets_spec shuffle hs
    (_build_brackets t ((pyDedupe (t.players.map Player.id)).filter (fun pid => pid ∉
      (lockedPairs.foldl (lockedStep (pyDedupe (t.players.map Player.id))) ([], [])).2)))
    (prior_pairs_set t)
    (_bye_already_from_rounds t ++ _bye_history_get t)
    (hbf.nodup_iff.mpr hremnd)
    (fun h => hrembye (hbf.mem_iff.mp h))
  have hround : (roundPlayers (pair_next_with_overrides shuffle mkId t lockedPairs).2.1).Perm
      (pyDedupe (t.players.map Player.id)) := by
    rw [pnwo_snd, roundPlayers_append, roundPlayers_matchesOfPairs,
      roundPlayers_restMatches]
    refine List.Perm.trans (hSLperm.append (hP.trans hbf)) ?_
    exact sub_filter_perm hallnd hLFnd hLFsub
  refine ⟨⟨?_, ?_⟩, hround⟩
  · intro m hm x hbx
    rw [pnwo_snd] at hm
    rcases List.mem_append.mp hm with h | h
    · obtain ⟨p, hp, ha, hb, _⟩ := mem_matchesOfPairs h
      rw [ha]
      rw [hb] at hbx
      injection hbx with hbx
      rw [← hbx]
      exact hSLns p hp
    · rcases mem_restMatches h with ⟨p, hp, ha, hb⟩ | hb
      · rw [ha]
        rw [hb] at hbx
        injection hbx with hbx
        rw [← hbx]
        exact hNS p hp
      · rw [hb] at hbx
        exact absurd hbx (by simp)
  · exact hround.nodup_iff.mpr hallnd

theorem map_t_matchesOfPairs (mkId : ℕ → String) (base : ℕ)
    (ps : List (String × String)) :
    (matchesOfPairs mkId base ps).map Match.t = List.range' (base + 1) ps.length := by
  have key : ∀ l : List (ℕ × String × String),
      (l.map (fun ip : ℕ × String × String =>
        ({ id := mkId (base + ip.1 + 1), t := base + ip.1 + 1, a := ip.2.1,
           b := some ip.2.2, r := "PENDING" } : Match))).map Match.t
      = l.map (fun ip => base + ip.1 + 1) := by
    intro l
    induction l with
    | nil => rfl
    | cons x xs ih =>
      rw [List.map_cons, List.map_cons, List.map_cons, ih]
  unfold matchesOfPairs
  rw [key ps.enum]
  have key2 : ps.enum.map (fun ip => base + ip.1 + 1)
      = (ps.enum.map Prod.fst).map (fun i => base + i + 1) := by
    rw [List.map_map]
    rfl
  rw [key2, List.enum_map_fst, List.range'_eq_map_range]
  refine List.map_congr_left ?_
  intro i _
  omega

theorem map_t_restMatches (mkId : ℕ → String) (base : ℕ)
    (ps : List (String × String)) :
    (restMatches mkId base ps).map Match.t = List.range' (base + 1) ps.length := by
  have key : ∀ l : List (ℕ × String × String),
      (l.map (fun ip : ℕ × String × String =>
        if ip.2.2 = "BYE" then
          ({ id := mkId (base + ip.1 + 1), t := base + ip.1 + 1, a := ip.2.1, b := none,
             r := "BYE" } : Match)
        else
          ({ id := mkId (base + ip.1 + 1), t := base + ip.1 + 1, a := ip.2.1,
             b := some ip.2.2, r := "PENDING" } : Match))).map Match.t
      = l.map (fun ip => base + ip.1 + 1) := by
    intro l
    induction l with
    | nil => rfl
    | cons x xs ih =>
      rw [List.map_cons, List.map_cons, List.map_cons, ih]
      by_cases hc : x.2.2 = "BYE"
      · rw [if_pos hc]
      · rw [if_neg hc]
  unfold restMatches
  rw [key ps.enum]
  have key2 : ps.enum.map (fun ip => base + ip.1 + 1)
      = (ps.enum.map Prod.fst).map (fun i => base + i + 1) := by
    rw [List.map_map]
    rfl
  rw [key2, List.enum_map_fst, List.range'_eq_map_range]
  refine List.map_congr_left ?_
  intro i _
  omega

theorem length_matchesOfPairs (mkId : ℕ → String) (base : ℕ)
    (ps : List (String × String)) :
    (matchesOfPairs mkId base ps).length = ps.length := by
  unfold matchesOfPairs
  rw [List.length_map, List.enum_length]

theorem length_restMatches (mkId : ℕ → String) (base : ℕ)
    (ps : List (String × String)) :
    (restMatches mkId base ps).length = ps.length := by
  unfold restMatches
  rw [List.length_map, List.enum_length]

theorem range'_dense (n1 n2 : ℕ) :
    List.range' (0 + 1) n1 ++ List.range' (n1 + 1) n2 = List.range' 1 (n1 + n2) := by
  have h := List.range'_append 1 n1 n2 1
  rw [show 1 + 1 * n1 = n1 + 1 from by omega] at h
  rw [show (0 : ℕ) + 1 = 1 from rfl]
  rw [h, Nat.add_comm n2 n1]

/-- C1: the round produced by pairing is always a valid matching — no
competitor appears in two matches of the round and no match pairs a
competitor with themselves — for `pair_next`, for a successful restart, and
for the override path, on any document whose roster ids are distinct,
nonempty strings other than the reserved "BYE" (in particular on documents
whose history already contains every possible pair, where the round
necessarily contains rematches). -/
theorem claim_C1_matching_valid (shuffle : ℕ → List String → List String)
    (hs : ∀ s l, (shuffle s l).Perm l) (mkId : ℕ → String) (t : Tournament)
    (hnd : (t.players.map Player.id).Nodup)
    (hbye : "BYE" ∉ t.players.map Player.id)
    (hemp : "" ∉ t.players.map Player.id) :
    matchingValidR (pair_next shuffle mkId t).2
      ∧ (∀ n ms t', restart_current_round_doc shuffle mkId t = .ok n ms t' →
          matchingValidR ms)
      ∧ (∀ lockedPairs,
          matchingValidR (pair_next_with_overrides shuffle mkId t lockedPairs).2.1) := by
  refine ⟨(pairNext_spec shuffle hs mkId t hnd hbye hemp).1, ?_, ?_⟩
  · intro n ms t' h
    obtain ⟨hms, _⟩ := restart_ok_inv shuffle mkId t n ms t' h
    rw [hms]
    exact (pairNext_spec shuffle hs mkId { t with rounds := t.rounds.dropLast }
      hnd hbye hemp).1
  · intro lockedPairs
    exact (pnwo_spec shuffle hs mkId t lockedPairs hbye).1

theorem claim_C1_matching_valid_witness :
    ((docRematch.players.map Player.id).Nodup
      ∧ "BYE" ∉ docRematch.players.map Player.id
      ∧ "" ∉ docRematch.players.map Player.id)
    ∧ matchingValidR (pair_next idShuffle mkM docRematch).2 :=
  ⟨by decide,
    (claim_C1_matching_valid idShuffle (fun _ l => List.Perm.refl l) mkM docRematch
      (by decide) (by decide) (by decide)).1⟩

/-- C3: pairing produces a perfect matching over the whole roster — the
multiset of competitors appearing in the new round's matches (the BYE
recipient appearing in its BYE match) is exactly the roster, so every
competitor other than the bye recipient sits in exactly one real match and
no competitor is silently left out. -/
theorem claim_C3_perfect_matching (shuffle : ℕ → List String → List String)
    (hs : ∀ s l, (shuffle s l).Perm l) (mkId : ℕ → String) (t : Tournament)
    (hnd : (t.players.map Player.id).Nodup)
    (hbye : "BYE" ∉ t.players.map Player.id)
    (hemp : "" ∉ t.players.map Player.id) :
    (roundPlayers (pair_next shuffle mkId t).2).Perm (t.players.map Player.id) :=
  (pairNext_spec shuffle hs mkId t hnd hbye hemp).2

theorem claim_C3_perfect_matching_witness :
    ((docFour.players.map Player.id).Nodup
      ∧ "BYE" ∉ docFour.players.map Player.id
      ∧ "" ∉ docFour.players.map Player.id)
    ∧ (roundPlayers (pair_next idShuffle mkM docFour).2).Perm
        (docFour.players.map Player.id) :=
  ⟨by decide,
    claim_C3_perfect_matching idShuffle (fun _ l => List.Perm.refl l) mkM docFour
      (by decide) (by decide) (by decide)⟩

/-- C10: a forced pair naming an id outside the roster is silently dropped:
the override call returns exactly what it returns with no override at all,
the produced round never contains the forced pair, and tables are numbered
densely 1, 2, … — no validation error is signalled. -/
theorem claim_C10_unknown_forced_pair (shuffle : ℕ → List String → List String)
    (hs : ∀ s l, (shuffle s l).Perm l) (mkId : ℕ → String) (t : Tournament)
    (a b : String)
    (hmiss : a ∉ t.players.map Player.id ∨ b ∉ t.players.map Player.id)
    (hbye : "BYE" ∉ t.players.map Player.id) :
    pair_next_with_overrides shuffle mkId t [(a, b)]
        = pair_next_with_overrides shuffle mkId t []
      ∧ (∀ m ∈ (pair_next_with_overrides shuffle mkId t [(a, b)]).2.1,
          ¬(m.a = a ∧ m.b = some b))
      ∧ ((pair_next_with_overrides shuffle mkId t [(a, b)]).2.1.map Match.t)
          = List.range' 1 (pair_next_with_overrides shuffle mkId t [(a, b)]).2.1.length := by
  have hfold : List.foldl (lockedStep (pyDedupe (t.players.map Player.id))) ([], [])
      [(a, b)] = ([], []) := by
    rw [List.foldl_cons, List.foldl_nil]
    unfold lockedStep
    by_cases hc1 : (a, b).1 = "" ∨ (a, b).2 = "" ∨ (a, b).1 = (a, b).2
    · rw [if_pos hc1]
    · rw [if_neg hc1]
      rw [if_neg ?hc2]
      case hc2 =>
        rintro ⟨h1, h2, _⟩
        rcases hmiss with h | h
        · exact h ((mem_pyDedupe _ _).mp h1)
        · exact h ((mem_pyDedupe _ _).mp h2)
  refine ⟨?_, ?_, ?_⟩
  · simp only [pair_next_with_overrides]
    rw [hfold, List.foldl_nil]
  · obtain ⟨_, hperm⟩ := pnwo_spec shuffle hs mkId t [(a, b)] hbye
    rintro m hm ⟨hma, hmb⟩
    have haR : m.a ∈ roundPlayers (pair_next_with_overrides shuffle mkId t [(a, b)]).2.1 :=
      List.mem_flatMap.mpr ⟨m, hm, List.mem_cons_self _ _⟩
    have hbR : b ∈ roundPlayers (pair_next_with_overrides shuffle mkId t [(a, b)]).2.1 :=
      List.mem_flatMap.mpr ⟨m, hm, by
        rw [hmb]
        exact List.mem_cons_of_mem _ (by simp)⟩
    rcases hmiss with h | h
    · rw [hma] at haR
      exact h ((mem_pyDedupe _ _).mp (hperm.mem_iff.mp haR))
    · exact h ((mem_pyDedupe _ _).mp (hperm.mem_iff.mp hbR))
  · rw [pnwo_snd, List.map_append, map_t_matchesOfPairs, map_t_restMatches,
      List.length_append, length_matchesOfPairs, length_restMatches, range'_dense]

theorem claim_C10_unknown_forced_pair_witness :
    (("zz" ∉ docFour.players.map Player.id ∨ "p1" ∉ docFour.players.map Player.id)
      ∧ "BYE" ∉ docFour.players.map Player.id)
    ∧ pair_next_with_overrides idShuffle mkM docFour [("zz", "p1")]
        = pair_next_with_overrides idShuffle mkM docFour [] :=
  ⟨⟨Or.inl (by decide), by decide⟩,
    (claim_C10_unknown_forced_pair idShuffle (fun _ l => List.Perm.refl l) mkM docFour
      "zz" "p1" (Or.inl (by decide)) (by decide)).1⟩

/-! ## Lemmas: round 1 is deterministic (the random source is never consulted) -/

theorem prior_pairs_set_nil (t : Tournament) (hr : t.rounds = []) :
    prior_pairs_set t = [] := by
  unfold prior_pairs_set
  rw [hr]
  rfl

theorem bracketStep_indep (shuffle shuffle' : ℕ → List String → List String)
    (recur recur' : List String → List (List String) → List (String × String) × List String)
    (hrec : ∀ c bs, recur c bs = recur' c bs)
    (work carry1 : List String) (rest : List (List String))
    (hwnd : work.Nodup) (hwev : work.length % 2 = 0) :
    bracketStep shuffle [] recur work carry1 rest
      = bracketStep shuffle' [] recur' work carry1 rest := by
  simp only [bracketStep]
  rw [pairBucket_nil_prior shuffle work hwnd hwev,
    pairBucket_nil_prior shuffle' work hwnd hwev]
  simp only []
  rw [hrec carry1 rest]

theorem bracketLoop_indep (shuffle shuffle' : ℕ → List String → List String) :
    ∀ (fuel : ℕ) (carry : List String) (bs : List (List String)),
      bracketLoopAux shuffle [] fuel carry bs = bracketLoopAux shuffle' [] fuel carry bs := by
  intro fuel
  induction fuel with
  | zero =>
    intro carry bs
    cases bs <;> rfl
  | succ fuel ih =>
    intro carry bs
    cases bs with
    | nil => rfl
    | cons bucket rest =>
      simp only [bracketLoopAux]
      by_cases hem : (pyDedupe (carry ++ bucket)).isEmpty
      · rw [if_pos hem, if_pos hem]
        exact ih [] rest
      · rw [if_neg hem, if_neg hem]
        have hw1nd : (pyDedupe (carry ++ bucket)).Nodup := nodup_pyDedupe _
        by_cases hodd : (pyDedupe (carry ++ bucket)).length % 2 = 1
        · simp only [if_pos hodd]
          exact bracketStep_indep shuffle shuffle' _ _ (fun c bs2 => ih c bs2) _ _ rest
            ((List.dropLast_sublist _).nodup hw1nd)
            (by rw [List.length_dropLast]; omega)
        · simp only [if_neg hodd]
          exact bracketStep_indep shuffle shuffle' _ _ (fun c bs2 => ih c bs2) _ _ rest
            hw1nd (by omega)

theorem pairBracketsGo_valid_eq (shuffle : ℕ → List String → List String)
    (hs : ∀ s l, (shuffle s l).Perm l) (prior : List (String × String))
    (byeP : Option String) (bs : List (List String))
    (hnd : (byeP.toList ++ bs.flatten).Nodup)
    (hbye : "BYE" ∉ byeP.toList ++ bs.flatten)
    (heven : bs.flatten.length % 2 = 0) :
    pairBrackets_go shuffle prior byeP bs
      = (bracketLoopAux shuffle prior bs.length [] bs).1
        ++ (match byeP with | some bp => [(bp, "BYE")] | none => []) := by
  have hfnd : bs.flatten.Nodup := by
    rcases byeP with _ | c
    · exact hnd
    · exact (List.nodup_cons.mp hnd).2
  have hfbye : "BYE" ∉ bs.flatten := by
    intro hmem
    exact hbye (List.mem_append.mpr (Or.inr hmem))
  rcases hl : bracketLoopAux shuffle prior bs.length [] bs with ⟨pr, cf⟩
  obtain ⟨hperm, hns, hcf⟩ := bracketLoop_spec shuffle hs prior bs.length [] bs
    (le_refl _) List.nodup_nil hfnd
    (fun x hx => absurd hx (List.not_mem_nil x)) pr cf hl
  rw [List.nil_append, pyDedupe_eq_self _ hfnd] at hperm
  have hcf0 : cf = [] := by
    rcases hcf with h | ⟨_, h⟩
    · have hlen := hperm.length_eq
      rw [List.length_append, flatPairs_length] at hlen
      have : cf.length = 0 := by omega
      exact List.length_eq_zero.mp this
    · exact h
  subst hcf0
  rw [List.append_nil] at hperm
  have hmem : ∀ x ∈ flatPairs pr, x ∈ bs.flatten := fun x hx => hperm.mem_iff.mp hx
  have hprnd : (flatPairs pr).Nodup := hperm.nodup_iff.mpr hfnd
  have hnbye : ∀ p ∈ pr, p.2 ≠ "BYE" := by
    intro p hp h2
    have h3 := hmem _ (mem_flatPairs_snd hp)
    rw [h2] at h3
    exact hfbye h3
  have hpb : playersB pr = flatPairs pr := playersB_eq_flatPairs pr hnbye
  rcases byeP with _ | c
  · have hvalid : _valid (pr ++ []) = true := by
      rw [List.append_nil]
      refine valid_of_nodup pr hns ?_
      rw [hpb]
      exact hprnd
    simp only [pairBrackets_go]
    rw [hl]
    simp only []
    rw [if_pos hvalid]
  · have hcnotin : c ∉ bs.flatten := (List.nodup_cons.mp hnd).1
    have hcne : c ≠ "BYE" := by
      intro h
      exact hbye (List.mem_append.mpr (Or.inl (by rw [← h]; exact List.mem_singleton.mpr rfl)))
    have hvalid : _valid (pr ++ [(c, "BYE")]) = true := by
      refine valid_of_nodup _ ?_ ?_
      · intro p hp
        rcases List.mem_append.mp hp with h | h
        · exact hns p h
        · rcases List.mem_singleton.mp h with rfl
          exact hcne
      · rw [playersB_append, hpb, show playersB [(c, "BYE")] = [c] from by simp [playersB]]
        refine nodup_append_of_disjoint hprnd (List.nodup_singleton c) ?_
        intro x hx hmem2
        rcases List.mem_singleton.mp hmem2 with rfl
        exact hcnotin (hmem x hx)
    simp only [pairBrackets_go]
    rw [hl]
    simp only []
    rw [if_pos hvalid]

theorem pairBrackets_indep (shuffle shuffle' : ℕ → List String → List String)
    (hs : ∀ s l, (shuffle s l).Perm l) (hs' : ∀ s l, (shuffle' s l).Perm l)
    (bs : List (List String)) (byeAl : List String)
    (hnd : bs.flatten.Nodup) (hbye : "BYE" ∉ bs.flatten) :
    _pair_brackets shuffle bs [] byeAl = _pair_brackets shuffle' bs [] byeAl := by
  have htot : (bs.map List.length).sum = bs.flatten.length := (List.length_flatten bs).symm
  by_cases hpar : (bs.map List.length).sum % 2 = 1
  · have hflodd : bs.flatten.length % 2 = 1 := by rw [← htot]; exact hpar
    have hgo : ∀ (c : String) (bs' : List (List String)),
        (c :: bs'.flatten).Perm bs.flatten →
        pairBrackets_go shuffle [] (some c) bs' = pairBrackets_go shuffle' [] (some c) bs' := by
      intro c bs' hcperm
      have hnd' : ((some c).toList ++ bs'.flatten).Nodup := hcperm.nodup_iff.mpr hnd
      have hbye' : "BYE" ∉ (some c).toList ++ bs'.flatten := by
        intro hmem
        exact hbye (hcperm.mem_iff.mp hmem)
      have heven' : bs'.flatten.length % 2 = 0 := by
        have := hcperm.length_eq
        simp only [List.length_cons] at this
        omega
      rw [pairBracketsGo_valid_eq shuffle hs [] (some c) bs' hnd' hbye' heven',
        pairBracketsGo_valid_eq shuffle' hs' [] (some c) bs' hnd' hbye' heven',
        bracketLoop_indep shuffle shuffle' bs'.length [] bs']
    rcases hA : chooseByeA byeAl bs with _ | ⟨c, bs'⟩
    · rcases hB : chooseByeB bs with _ | ⟨c, bs'⟩
      · have hflnil := chooseByeB_none bs hB
        rw [hflnil] at hflodd
        exact absurd hflodd (by simp)
      · simp only [_pair_brackets, if_pos hpar, hA, hB]
        exact hgo c bs' (chooseByeB_perm bs c bs' hB)
    · simp only [_pair_brackets, if_pos hpar, hA]
      exact hgo c bs' (chooseByeA_perm byeAl bs c bs' hA)
  · have hfleven : bs.flatten.length % 2 = 0 := by
      rcases Nat.mod_two_eq_zero_or_one (bs.map List.length).sum with h | h
      · rw [← htot]; exact h
      · exact absurd h hpar
    have hnd0 : ((none : Option String).toList ++ bs.flatten).Nodup := by
      rw [show ((none : Option String).toList ++ bs.flatten) = bs.flatten from rfl]
      exact hnd
    have hbye0 : "BYE" ∉ (none : Option String).toList ++ bs.flatten := by
      rw [show ((none : Option String).toList ++ bs.flatten) = bs.flatten from rfl]
      exact hbye
    simp only [_pair_brackets, if_neg hpar]
    rw [pairBracketsGo_valid_eq shuffle hs [] none bs hnd0 hbye0 hfleven,
      pairBracketsGo_valid_eq shuffle' hs' [] none bs hnd0 hbye0 hfleven,
      bracketLoop_indep shuffle shuffle' bs.length [] bs]

/-- C6 (amended): on a document with no prior rounds, `pair_next` never
consults the random source — any two permutation draws give the identical
round-1 output.  Round 1 is the same Swiss bracket/standings pipeline run
on all-equal standings keys, not a random shuffle. -/
theorem claim_C6_amended (shuffle shuffle' : ℕ → List String → List String)
    (hs : ∀ s l, (shuffle s l).Perm l) (hs' : ∀ s l, (shuffle' s l).Perm l)
    (mkId : ℕ → String) (t : Tournament) (hr : t.rounds = [])
    (hnd : (t.players.map Player.id).Nodup)
    (hbye : "BYE" ∉ t.players.map Player.id) :
    pair_next shuffle mkId t = pair_next shuffle' mkId t := by
  have hprior : prior_pairs_set t = [] := prior_pairs_set_nil t hr
  have hsnd : (pair_next shuffle mkId t).2 = (pair_next shuffle' mkId t).2 := by
    by_cases hodd : (t.players.map Player.id).length % 2 = 1
    · have hne : t.players.map Player.id ≠ [] := by
        intro h0
        rw [h0] at hodd
        exact absurd hodd (by simp)
      have hbmem : _choose_bye_id t ∈ t.players.map Player.id := chooseByeId_mem t hne
      have hfperm : (_choose_bye_id t ::
          (t.players.map Player.id).filter (fun pid => pid ≠ _choose_bye_id t)).Perm
          (t.players.map Player.id) := filter_ne_perm _ _ hnd hbmem
      have hallnd : ((t.players.map Player.id).filter
          (fun pid => pid ≠ _choose_bye_id t)).Nodup := hnd.filter _
      have hallbye : "BYE" ∉ (t.players.map Player.id).filter
          (fun pid => pid ≠ _choose_bye_id t) := by
        intro h
        exact hbye (List.mem_filter.mp h).1
      have hbf := buildBrackets_flatten t
        ((t.players.map Player.id).filter (fun pid => pid ≠ _choose_bye_id t)) hallnd
      rw [pairNext_snd_odd shuffle mkId t hodd, pairNext_snd_odd shuffle' mkId t hodd,
        hprior,
        pairBrackets_indep shuffle shuffle' hs hs'
          (_build_brackets t ((t.players.map Player.id).filter
            (fun pid => pid ≠ _choose_bye_id t))) []
          (hbf.nodup_iff.mpr hallnd)
          (fun h => hallbye (hbf.mem_iff.mp h))]
    · have hbf := buildBrackets_flatten t (t.players.map Player.id) hnd
      rw [pairNext_snd_even shuffle mkId t hodd, pairNext_snd_even shuffle' mkId t hodd,
        hprior,
        pairBrackets_indep shuffle shuffle' hs hs'
          (_build_brackets t (t.players.map Player.id)) []
          (hbf.nodup_iff.mpr hnd)
          (fun h => hbye (hbf.mem_iff.mp h))]
  exact Prod.ext_iff.mpr ⟨rfl, hsnd⟩

theorem claim_C6_amended_witness :
    (docFour.rounds = []
      ∧ (docFour.players.map Player.id).Nodup
      ∧ "BYE" ∉ docFour.players.map Player.id)
    ∧ pair_next revShuffle mkM docFour = pair_next idShuffle mkM docFour :=
  ⟨⟨rfl, by decide, by decide⟩,
    claim_C6_amended revShuffle idShuffle (fun _ l => List.reverse_perm l)
      (fun _ l => List.Perm.refl l) mkM docFour rfl (by decide) (by decide)⟩

/-! ## Round 1 concretely: all-equal keys, adjacency pairing -/

theorem flatPairs_adjacentPairs : ∀ (n : ℕ) (l : List String), l.length ≤ n →
    l.length % 2 = 0 → flatPairs (adjacentPairs l) = l := by
  intro n
  induction n with
  | zero =>
    intro l h1 _
    have hl : l = [] := List.length_eq_zero.mp (by omega)
    subst hl
    rfl
  | succ n ih =>
    intro l h1 h2
    rcases l with _ | ⟨a, rest⟩
    · rfl
    · rcases rest with _ | ⟨b, rest2⟩
      · exact absurd h2 (by simp)
      · show flatPairs ((a, b) :: adjacentPairs rest2) = a :: b :: rest2
        rw [show flatPairs ((a, b) :: adjacentPairs rest2)
            = a :: b :: flatPairs (adjacentPairs rest2) from rfl]
        rw [ih rest2 (by simp only [List.length_cons] at h1; omega)
          (by simp only [List.length_cons] at h2; omega)]

theorem flatPairs_nodup_no_self : ∀ ps : List (String × String),
    (flatPairs ps).Nodup → ∀ p ∈ ps, p.1 ≠ p.2 := by
  intro ps
  induction ps with
  | nil =>
    intro _ p hp
    exact absurd hp (List.not_mem_nil p)
  | cons q qs ih =>
    intro hnd p hp
    rw [show flatPairs (q :: qs) = q.1 :: q.2 :: flatPairs qs from rfl] at hnd
    rcases List.mem_cons.mp hp with rfl | hp2
    · intro h
      exact (List.nodup_cons.mp hnd).1 (by rw [h]; exact List.mem_cons_self _ _)
    · exact ih (List.nodup_cons.mp ((List.nodup_cons.mp hnd).2)).2 p hp2

theorem pairBrackets_single_even (shuffle : ℕ → List String → List String)
    (hs : ∀ s l, (shuffle s l).Perm l) (l : List String) (byeAl : List String)
    (hnd : l.Nodup) (hbye : "BYE" ∉ l) (hev : l.length % 2 = 0) (hne : l ≠ []) :
    _pair_brackets shuffle [l] [] byeAl = adjacentPairs l := by
  have hpar : ¬((([l] : List (List String)).map List.length).sum % 2 = 1) := by
    show ¬((l.length + 0) % 2 = 1)
    omega
  have hoddl : ¬(l.length % 2 = 1) := by omega
  have hloop : bracketLoopAux shuffle [] ([l] : List (List String)).length [] [l]
      = (adjacentPairs l, []) := by
    show bracketLoopAux shuffle [] 1 [] [l] = _
    simp only [bracketLoopAux]
    rw [show (([] : List String) ++ l) = l from rfl, pyDedupe_eq_self l hnd]
    rw [if_neg ?hne2]
    case hne2 =>
      intro h
      rcases hv : l with _ | ⟨a, as⟩
      · exact hne hv
      · rw [hv] at h
        exact absurd h (by simp)
    simp only [if_neg hoddl]
    simp only [bracketStep]
    rw [pairBucket_nil_prior shuffle l hnd hev]
    simp only []
    rw [bracketLoopAux_nil]
    show (adjacentPairs l ++ [], ([] : List String)) = (adjacentPairs l, [])
    rw [List.append_nil]
  simp only [_pair_brackets, if_neg hpar]
  rw [pairBracketsGo_valid_eq shuffle hs [] none [l] ?nd0 ?bye0 ?ev0]
  case nd0 =>
    show (l ++ []).Nodup
    rw [List.append_nil]
    exact hnd
  case bye0 =>
    show "BYE" ∉ l ++ []
    rw [List.append_nil]
    exact hbye
  case ev0 =>
    show (l ++ []).length % 2 = 0
    rw [List.append_nil]
    exact hev
  rw [hloop]
  show adjacentPairs l ++ [] = adjacentPairs l
  rw [List.append_nil]

theorem rowOf_empty_kts (ns : List Node) (nd : Node)
    (hw : nd.wins = []) (hl : nd.losses = []) (ht : nd.ties = [])
    (hlr : nd.lost_rounds = []) :
    (rowOf ns nd).kts = 0 := by
  have hopp : (oppList nd).filterMap id = [] := by
    unfold oppList
    rw [hw, hl, ht]
    rfl
  have howp : opp_win_pct ns nd = 0 := by
    simp only [opp_win_pct, hopp, List.length_nil]
    rw [if_pos trivial]
  have hoom : oppOppMean ns nd = 0 := by
    simp only [oppOppMean, hopp, List.length_nil]
    rw [if_pos trivial]
  have hmp : nd.match_points = 0 := by
    unfold Node.match_points
    rw [hw]
    rfl
  have hrs : roundScaled3 (0 : ℚ) = 0 := by
    unfold roundScaled3 rhe
    rw [mul_zero]
    rw [if_neg ?h1]
    case h1 => norm_num
    norm_num
  have hbbb : bbbOf ns nd = 0 := by
    unfold bbbOf
    rw [howp, hrs]
    rfl
  have hccc : cccOf ns nd = 0 := by
    unfold cccOf
    rw [hoom, hrs]
    rfl
  have hddd : dddOf nd = 0 := by
    unfold dddOf
    rw [hlr]
    rfl
  show ((nd.match_points * 1000 + bbbOf ns nd) * 1000 + cccOf ns nd) * 1000 + dddOf nd = 0
  rw [hmp, hbbb, hccc, hddd]

theorem ktsById_empty (t : Tournament) (hr : t.rounds = []) (pid : String) :
    ktsById t pid = 0 := by
  have hgraph : rebuild_graph t = initNodes t := by
    unfold rebuild_graph
    rw [hr]
    rfl
  obtain ⟨o, hf⟩ : ∃ o, ((initNodes t).map (fun nd => rowOf (initNodes t) nd)).find?
      (fun r => r.player_id = pid) = o := ⟨_, rfl⟩
  rcases o with _ | row
  · unfold ktsById standingsRows
    rw [hgraph, hf]
    rfl
  · have hrow : ktsById t pid = row.kts := by
      unfold ktsById standingsRows
      rw [hgraph, hf]
      rfl
    rw [hrow]
    have hmem := List.mem_of_find?_eq_some hf
    obtain ⟨nd, hnd2, rfl⟩ := List.mem_map.mp hmem
    obtain ⟨p, _, rfl⟩ := List.mem_map.mp hnd2
    exact rowOf_empty_kts _ _ rfl rfl rfl rfl

theorem bracketLe_empty (t : Tournament) (hr : t.rounds = []) (x y : String) :
    bracketLe t x y = decide (nameOf t x ≤ nameOf t y) := by
  unfold bracketLe
  rw [ktsById_empty t hr x, ktsById_empty t hr y]
  rw [if_neg (fun h => h rfl)]

theorem sInsert_true_head {α : Type} (le : α → α → Bool) (x : α) (l : List α)
    (h : ∀ y ∈ l, le x y = true) : sInsert le x l = x :: l := by
  cases l with
  | nil => rfl
  | cons y ys =>
    unfold sInsert
    rw [if_pos (h y (List.mem_cons_self _ _))]

theorem stableSort_all_true {α : Type} (le : α → α → Bool) :
    ∀ l : List α, (∀ x ∈ l, ∀ y ∈ l, le x y = true) → stableSort le l = l := by
  intro l
  induction l with
  | nil => intro _; rfl
  | cons x xs ih =>
    intro h
    show sInsert le x (stableSort le xs) = x :: xs
    rw [ih (fun a ha b hb => h a (List.mem_cons_of_mem x ha) b (List.mem_cons_of_mem x hb))]
    exact sInsert_true_head le x xs
      (fun y hy => h x (List.mem_cons_self _ _) y (List.mem_cons_of_mem x hy))

/-- Four fresh players with identical display names: on round 1 every
component of every sort key coincides, so the bracket order is the roster
order. -/
def docC6 : Tournament :=
  { name := "c6", total_rounds := 3,
    players := [{ id := "p1", name := "z" }, { id := "p2", name := "z" },
                { id := "p3", name := "z" }, { id := "p4", name := "z" }],
    rounds := [] }

theorem docC6_bracketLe_true : ∀ x ∈ docC6.players.map Player.id,
    ∀ y ∈ docC6.players.map Player.id, bracketLe docC6 x y = true := by
  intro x hx y hy
  rw [bracketLe_empty docC6 rfl x y]
  have hnx : nameOf docC6 x = "z" := by
    fin_cases hx <;> decide
  have hny : nameOf docC6 y = "z" := by
    fin_cases hy <;> decide
  rw [hnx, hny]
  exact decide_eq_true (le_refl _)

theorem docC6_brackets : _build_brackets docC6 (docC6.players.map Player.id)
    = [docC6.players.map Player.id] := by
  simp only [_build_brackets]
  rw [show pyDedupe ((docC6.players.map Player.id).map (ptsById docC6)) = [0] from by decide]
  rw [show stableSort (fun a b => decide (b ≤ a)) ([0] : List ℕ) = [0] from rfl]
  rw [show ([0] : List ℕ).map (fun k => stableSort (bracketLe docC6)
      ((docC6.players.map Player.id).filter (fun pid => ptsById docC6 pid = k)))
    = [stableSort (bracketLe docC6)
      ((docC6.players.map Player.id).filter (fun pid => ptsById docC6 pid = 0))] from rfl]
  rw [show (docC6.players.map Player.id).filter (fun pid => ptsById docC6 pid = 0)
      = docC6.players.map Player.id from by decide]
  rw [stableSort_all_true (bracketLe docC6) _ docC6_bracketLe_true]

theorem docC6_snd (shuffle : ℕ → List String → List String)
    (hs : ∀ s l, (shuffle s l).Perm l) :
    (pair_next shuffle mkM docC6).2
      = [exM "m1" 1 "p1" (some "p2") "PENDING",
         exM "m2" 2 "p3" (some "p4") "PENDING"] := by
  rw [pairNext_snd_even shuffle mkM docC6 (by decide)]
  rw [prior_pairs_set_nil docC6 rfl]
  rw [docC6_brackets]
  rw [pairBrackets_single_even shuffle hs (docC6.players.map Player.id) []
    (by decide) (by decide) (by decide) (by decide)]
  rw [show byeMatchList mkM (adjacentPairs (docC6.players.map Player.id)).length none
      = ([] : List Match) from rfl]
  rw [List.append_nil]
  decide

/-- C6: refuted as stated.  With the reversing permutation draw, a genuine
"pure random shuffle" round 1 (the spec-modelled `specRound1ShuffleMatches`)
pairs the reversed roster, but `pair_next` ignores the draw entirely: its
round 1 equals the deterministic output obtained with the identity draw. -/
theorem claim_C6_counterexample :
    (pair_next revShuffle mkM docC6).2 ≠ specRound1ShuffleMatches revShuffle 0 mkM docC6
      ∧ (pair_next revShuffle mkM docC6).2 = (pair_next idShuffle mkM docC6).2 := by
  have h1 := docC6_snd revShuffle (fun _ l => List.reverse_perm l)
  have h2 := docC6_snd idShuffle (fun _ l => List.Perm.refl l)
  constructor
  · rw [h1]
    decide
  · rw [h1, h2]

end Swiss
